import Mathlib

/-!
# astron.libwasm: the Datagram codec, channel addressing and the Connection

A shallow embedding of `src/network/Datagram.hxx`, of the constants and channel
functions of `src/util/types.hxx` (default build, no `ASTRON_128BIT_CHANNELS`; the type
widths of the alternate build are in `Build`), of `src/network/Connection.cxx` and of
`src/client/ClientConnection.cxx`.

* A byte is a natural number below 256; a byte array is a `List Nat` whose length is
  the number of bytes that were allocated for it.
* `dgsize_t` is `uint16_t`: every store into `buf_cap` or `buf_end`, and every argument
  passed as `dgsize_t`, is reduced modulo `65536`.  Comparisons such as
  `buf_end + len > buf_cap` are done in `int` by the C++ promotion rules and cannot wrap.
* The target is WebAssembly, so `memcpy(dst, &v, n)` of an integer copies its `n`
  low-order bytes, least significant first.
* `memcpy` outside the bounds of an array is undefined behaviour; the embedding returns
  `none` there, so all operations are `Option`-valued.
* Freshly allocated bytes are indeterminate in C++; they are modelled as `0` and no
  theorem below depends on their value.
* A `std::vector<uint8_t>` or `std::string` argument is the list of its bytes, copied as
  it is; `&data[0]` of an empty vector is taken as a pointer that a zero-length copy
  never reads.
* Integer arguments are natural numbers; the conversion to the parameter type happens
  where the value is copied, since `leBytes n v` keeps the `n` low-order bytes of `v`.
* A `const Datagram &dg` argument that is another object is the value of its members,
  which no statement of the callee changes (`add_datagram`, `add_blob_datagram`).  When
  the argument is the receiver itself every read of `dg.buf` and `dg.buf_end` is a read of
  the receiver's current members (`add_datagram_self`, `add_blob_self`).
-/

namespace astron

/-! ## `types.hxx` -/

def CHANNEL_SIZE_BYTES : Nat := 8
def DOID_SIZE_BYTES : Nat := 4
def ZONE_SIZE_BITS : Nat := 32
def ZONE_SIZE_BYTES : Nat := ZONE_SIZE_BITS / 8
def CONTROL_MESSAGE : Nat := 1

/-- Conversion of an integer to `channel_t` (`typedef uint64_t channel_t`). -/
def channel_t (n : Nat) : Nat := n % 2 ^ 64

/-- Conversion of an integer to `doid_t` (`typedef uint32_t doid_t`). -/
def doid_t (n : Nat) : Nat := n % 2 ^ 32

/-- Conversion of an integer to `zone_t` (`typedef uint32_t zone_t`). -/
def zone_t (n : Nat) : Nat := n % 2 ^ 32

/-- The value of `sizeof(zone_t)`. -/
def sizeof_zone_t : Nat := 4

/-- Constant `const size_t ZONE_BITS = sizeof(zone_t) * 8`. -/
def ZONE_BITS : Nat := sizeof_zone_t * 8

/-- Constant `const channel_t PARENT_PREFIX = (channel_t(1) << ZONE_BITS)`; a shift of a
`uint64_t` keeps the low 64 bits. -/
def PARENT_PREFIX : Nat := channel_t (channel_t 1 <<< ZONE_BITS)

/-- Constant `const channel_t DATABASE_PREFIX = (channel_t(2) << ZONE_BITS)`. -/
def DATABASE_PREFIX : Nat := channel_t (channel_t 2 <<< ZONE_BITS)

/-- Function `inline channel_t location_as_channel(doid_t parent, zone_t zone)`; the
arguments are converted to their 32-bit parameter types by the call. -/
def location_as_channel (parent zone : Nat) : Nat :=
  channel_t (channel_t (doid_t parent) <<< ZONE_BITS) ||| channel_t (zone_t zone)

/-- Function `inline channel_t parent_to_children(doid_t parent)`. -/
def parent_to_children (parent : Nat) : Nat := PARENT_PREFIX ||| channel_t (doid_t parent)

/-- Function `inline channel_t database_to_object(doid_t object)`. -/
def database_to_object (object : Nat) : Nat := DATABASE_PREFIX ||| channel_t (doid_t object)

/-! ## `Datagram.hxx` -/

def DG_SIZE_TAG_BYTES : Nat := 2

/-- Conversion of an integer to `dgsize_t` (`typedef uint16_t dgsize_t`). -/
def dgsize_t (n : Nat) : Nat := n % 65536

/-- The value of `sizeof(dgsize_t)`. -/
def sizeof_dgsize_t : Nat := 2

/-- The object representation read by `memcpy(dst, &v, n)` on a little-endian host:
the `n` low-order bytes of `v`, least significant first. -/
def leBytes : Nat → Nat → List Nat
  | 0, _ => []
  | n + 1, v => v % 256 :: leBytes n (v / 256)

/-- The array returned by `new uint8_t[n]`. -/
def newArray (n : Nat) : List Nat := List.replicate n 0

/-- The effect of `memcpy(dst + off, src, n)` on the array `dst`; `none` when the copy
would leave the bounds of `dst` or of `src`. -/
def memcpy (dst : List Nat) (off : Nat) (src : List Nat) (n : Nat) : Option (List Nat) :=
  if off + n ≤ dst.length ∧ n ≤ src.length then
    some (dst.take off ++ src.take n ++ dst.drop (off + n))
  else none

/-- The private members of `class Datagram`. -/
structure Datagram where
  buf : List Nat
  buf_cap : Nat
  buf_end : Nat
deriving DecidableEq, Repr

namespace Datagram

/-- Method `void check_add_length(dgsize_t len)`. -/
def check_add_length (d : Datagram) (len : Nat) : Option Datagram :=
  let len := dgsize_t len
  if d.buf_end + len > d.buf_cap then
    (memcpy (newArray (d.buf_cap + len + 64)) 0 d.buf d.buf_cap).bind fun tmp_buf =>
      some { buf := tmp_buf, buf_cap := dgsize_t (d.buf_cap + len + 64), buf_end := d.buf_end }
  else some d

/-- The statement pair `memcpy(buf + buf_end, src, n); buf_end += n;` that every
append method ends with. -/
def put (d : Datagram) (src : List Nat) (n : Nat) : Option Datagram :=
  (memcpy d.buf d.buf_end src n).bind fun b =>
    some { buf := b, buf_cap := d.buf_cap, buf_end := dgsize_t (d.buf_end + n) }

/-- Constructor `Datagram()`. -/
def default : Datagram := { buf := newArray 64, buf_cap := 64, buf_end := 0 }

/-- Method `dgsize_t size() const`. -/
def size (d : Datagram) : Nat := d.buf_end

/-- Method `uint8_t *get_data() const`. -/
def get_data (d : Datagram) : List Nat := d.buf

/-- The bytes a reader sees: the first `size()` bytes of `get_data()`. -/
def bytes (d : Datagram) : List Nat := d.get_data.take d.size

/-- Constructor `Datagram(const Datagram &dg)`. -/
def copy (dg : Datagram) : Option Datagram :=
  (memcpy (newArray dg.size) 0 dg.buf dg.size).bind fun b =>
    some { buf := b, buf_cap := dgsize_t dg.size, buf_end := dgsize_t dg.size }

/-- Constructor `Datagram(const std::vector<uint8_t> &data)`. -/
def ofVector (data : List Nat) : Option Datagram :=
  (memcpy (newArray data.length) 0 data data.length).bind fun b =>
    some { buf := b, buf_cap := dgsize_t data.length, buf_end := dgsize_t data.length }

/-- Constructor `Datagram(const std::string &data)`. -/
def ofString (data : List Nat) : Option Datagram :=
  (memcpy (newArray data.length) 0 data data.length).bind fun b =>
    some { buf := b, buf_cap := dgsize_t data.length, buf_end := dgsize_t data.length }

/-- Constructor `Datagram(const uint8_t *data, dgsize_t length)`; `data` is the memory readable
through the pointer. -/
def ofRaw (data : List Nat) (length : Nat) : Option Datagram :=
  let length := dgsize_t length
  (memcpy (newArray length) 0 data length).bind fun b =>
    some { buf := b, buf_cap := length, buf_end := length }

/-- Method `void add_uint8(const uint8_t &v)`. -/
def add_uint8 (d : Datagram) (v : Nat) : Option Datagram :=
  (d.check_add_length 1).bind fun d => d.put (leBytes 1 v) 1

/-- Method `void add_bool(const bool &v)`. -/
def add_bool (d : Datagram) (v : Bool) : Option Datagram :=
  if v then d.add_uint8 1 else d.add_uint8 0

/-- Method `void add_uint16(const uint16_t &v)`. -/
def add_uint16 (d : Datagram) (v : Nat) : Option Datagram :=
  (d.check_add_length 2).bind fun d => d.put (leBytes 2 v) 2

/-- Method `void add_uint32(const uint32_t &v)`. -/
def add_uint32 (d : Datagram) (v : Nat) : Option Datagram :=
  (d.check_add_length 4).bind fun d => d.put (leBytes 4 v) 4

/-- Method `void add_uint64(const uint64_t &v)`. -/
def add_uint64 (d : Datagram) (v : Nat) : Option Datagram :=
  (d.check_add_length 8).bind fun d => d.put (leBytes 8 v) 8

/-- Method `void add_channel(const channel_t &v)`. -/
def add_channel (d : Datagram) (v : Nat) : Option Datagram :=
  (d.check_add_length CHANNEL_SIZE_BYTES).bind fun d =>
    d.put (leBytes CHANNEL_SIZE_BYTES v) CHANNEL_SIZE_BYTES

/-- Method `void add_doid(const doid_t &v)`. -/
def add_doid (d : Datagram) (v : Nat) : Option Datagram :=
  (d.check_add_length DOID_SIZE_BYTES).bind fun d =>
    d.put (leBytes DOID_SIZE_BYTES v) DOID_SIZE_BYTES

/-- Method `void add_zone(const zone_t &v)`. -/
def add_zone (d : Datagram) (v : Nat) : Option Datagram :=
  (d.check_add_length ZONE_SIZE_BYTES).bind fun d =>
    d.put (leBytes ZONE_SIZE_BYTES v) ZONE_SIZE_BYTES

/-- Method `void add_location(const doid_t &parent, const zone_t &zone)`. -/
def add_location (d : Datagram) (parent zone : Nat) : Option Datagram :=
  (d.check_add_length (DOID_SIZE_BYTES + ZONE_SIZE_BYTES)).bind fun d =>
    (d.put (leBytes DOID_SIZE_BYTES parent) DOID_SIZE_BYTES).bind fun d =>
      d.put (leBytes ZONE_SIZE_BYTES zone) ZONE_SIZE_BYTES

/-- Method `void add_data(const std::vector<uint8_t> &data)`. -/
def add_data (d : Datagram) (data : List Nat) : Option Datagram :=
  if data.length ≠ 0 then
    (d.check_add_length data.length).bind fun d => d.put data data.length
  else some d

/-- Method `void add_data(const std::string &str)`. -/
def add_data_string (d : Datagram) (str : List Nat) : Option Datagram :=
  (d.check_add_length str.length).bind fun d => d.put str str.length

/-- Method `void add_datagram(const Datagram &dg)` for `dg` an object other than `*this`: its
members are the same before and after the receiver changes. The call with the receiver
itself as argument is `add_datagram_self`. -/
def add_datagram (d : Datagram) (dg : Datagram) : Option Datagram :=
  (d.check_add_length dg.buf_end).bind fun d => d.put dg.buf dg.buf_end

/-- Method `void add_datagram(const Datagram &dg)` in the call `d.add_datagram(d)`: `dg.buf`
and `dg.buf_end` are the receiver's own members, read when the statement that names them
runs, so `memcpy` reads the array that `check_add_length` has left in `buf`. -/
def add_datagram_self (d : Datagram) : Option Datagram :=
  (d.check_add_length d.buf_end).bind fun d => d.put d.buf d.buf_end

/-- Method `void add_string(const std::string &str)`. -/
def add_string (d : Datagram) (str : List Nat) : Option Datagram :=
  (d.add_uint16 str.length).bind fun d =>
    (d.check_add_length str.length).bind fun d => d.put str str.length

/-- Method `void add_string(const char *c_str)`; `c_str` is the memory behind the pointer and
`std::string str(c_str)` stops at its first zero byte. -/
def add_string_c_str (d : Datagram) (c_str : List Nat) : Option Datagram :=
  let str := c_str.takeWhile (fun c => c != 0)
  (d.add_uint16 str.length).bind fun d =>
    (d.check_add_length str.length).bind fun d => d.put str str.length

/-- Method `void add_blob(const std::vector<uint8_t> &blob)`. -/
def add_blob (d : Datagram) (blob : List Nat) : Option Datagram :=
  (d.add_uint16 blob.length).bind fun d =>
    (d.check_add_length blob.length).bind fun d => d.put blob blob.length

/-- Method `void add_size(const dgsize_t &v)`. -/
def add_size (d : Datagram) (v : Nat) : Option Datagram :=
  (d.check_add_length sizeof_dgsize_t).bind fun d =>
    d.put (leBytes sizeof_dgsize_t (dgsize_t v)) sizeof_dgsize_t

/-- Method `void add_blob(const Datagram &dg)` for `dg` an object other than `*this`: its
members are the same before and after the receiver changes. The call with the receiver
itself as argument is `add_blob_self`. -/
def add_blob_datagram (d : Datagram) (dg : Datagram) : Option Datagram :=
  (d.add_size dg.buf_end).bind fun d =>
    (d.check_add_length dg.buf_end).bind fun d => d.put dg.buf dg.buf_end

/-- Method `void add_blob(const Datagram &dg)` in the call `d.add_blob(d)`: `dg.buf` and
`dg.buf_end` are the receiver's own members, read when the statement that names them runs.
`add_size(dg.buf_end)` writes the length before it advances `buf_end`; the three reads of
`dg.buf_end` that follow see the advanced value. -/
def add_blob_self (d : Datagram) : Option Datagram :=
  (d.add_size d.buf_end).bind fun d =>
    (d.check_add_length d.buf_end).bind fun d => d.put d.buf d.buf_end

/-- Method `uint8_t *add_buffer(dgsize_t length)`: the pointer is returned as its offset from
`buf`, next to the new state. -/
def add_buffer (d : Datagram) (length : Nat) : Option (Nat × Datagram) :=
  let length := dgsize_t length
  (d.check_add_length length).bind fun d =>
    some (d.buf_end, { buf := d.buf, buf_cap := d.buf_cap, buf_end := dgsize_t (d.buf_end + length) })

/-- Method `void add_server_header(channel_t to, channel_t from, uint16_t message_type)`; the parameters
`to` and `from` are named `to_channel` and `sender` here. -/
def add_server_header (d : Datagram) (to_channel sender message_type : Nat) : Option Datagram :=
  (d.add_uint8 1).bind fun d =>
    (d.add_channel to_channel).bind fun d =>
      (d.add_channel sender).bind fun d => d.add_uint16 message_type

/-- The loop `for (auto it = to.begin(); it != to.end(); ++it) add_channel(*it);` over the
elements of the set in iteration order. -/
def add_channels (d : Datagram) : List Nat → Option Datagram
  | [] => some d
  | c :: cs => (d.add_channel c).bind fun d => add_channels d cs

/-- Method `void add_server_header(const std::set<channel_t> &to, channel_t from,
uint16_t message_type)`; a `std::set` iterates in ascending order. -/
def add_server_header_set (d : Datagram) (to_channels : Finset Nat) (sender message_type : Nat) :
    Option Datagram :=
  (d.add_uint8 to_channels.card).bind fun d =>
    (d.add_channels (to_channels.sort (· ≤ ·))).bind fun d =>
      (d.add_channel sender).bind fun d => d.add_uint16 message_type

/-- Method `void add_control_header(uint16_t message_type)`. -/
def add_control_header (d : Datagram) (message_type : Nat) : Option Datagram :=
  (d.add_uint8 1).bind fun d =>
    (d.add_channel CONTROL_MESSAGE).bind fun d => d.add_uint16 message_type

/-- Constructor `Datagram(uint64_t to_channel, uint64_t from_channel, uint16_t message_type)`. -/
def ofServerHeader (to_channel from_channel message_type : Nat) : Option Datagram :=
  add_server_header { buf := newArray 64, buf_cap := 64, buf_end := 0 }
    to_channel from_channel message_type

/-- Constructor `Datagram(const std::set<uint64_t> &to_channels, uint64_t from_channel,
uint16_t message_type)`. -/
def ofServerHeaderSet (to_channels : Finset Nat) (from_channel message_type : Nat) :
    Option Datagram :=
  add_server_header_set { buf := newArray 64, buf_cap := 64, buf_end := 0 }
    to_channels from_channel message_type

/-- Constructor `Datagram(uint16_t message_type)`. -/
def ofControlHeader (message_type : Nat) : Option Datagram :=
  add_control_header { buf := newArray 64, buf_cap := 64, buf_end := 0 } message_type

end Datagram

/-! ## The append calls as data

The calls of the public interface, so that sequences of calls can be quantified over. -/

/-- One call of an append method of `Datagram`, with its arguments. A nested Datagram
argument is an object other than the receiver, given by its members at the time of the
call. -/
inductive Call where
  | add_bool (v : Bool)
  | add_uint8 (v : Nat)
  | add_uint16 (v : Nat)
  | add_uint32 (v : Nat)
  | add_uint64 (v : Nat)
  | add_size (v : Nat)
  | add_channel (v : Nat)
  | add_doid (v : Nat)
  | add_zone (v : Nat)
  | add_location (parent zone : Nat)
  | add_data (data : List Nat)
  | add_data_string (str : List Nat)
  | add_string (str : List Nat)
  | add_string_c_str (c_str : List Nat)
  | add_blob (blob : List Nat)
  | add_blob_datagram (dg : Datagram)
  | add_datagram (dg : Datagram)
  | add_server_header (to_channel sender message_type : Nat)
  | add_server_header_set (to_channels : Finset Nat) (sender message_type : Nat)
  | add_control_header (message_type : Nat)

/-- Running one call on a Datagram. -/
def Call.apply (d : Datagram) : Call → Option Datagram
  | .add_bool v => d.add_bool v
  | .add_uint8 v => d.add_uint8 v
  | .add_uint16 v => d.add_uint16 v
  | .add_uint32 v => d.add_uint32 v
  | .add_uint64 v => d.add_uint64 v
  | .add_size v => d.add_size v
  | .add_channel v => d.add_channel v
  | .add_doid v => d.add_doid v
  | .add_zone v => d.add_zone v
  | .add_location parent zone => d.add_location parent zone
  | .add_data data => d.add_data data
  | .add_data_string str => d.add_data_string str
  | .add_string str => d.add_string str
  | .add_string_c_str c_str => d.add_string_c_str c_str
  | .add_blob blob => d.add_blob blob
  | .add_blob_datagram dg => d.add_blob_datagram dg
  | .add_datagram dg => d.add_datagram dg
  | .add_server_header to_channel sender message_type =>
      d.add_server_header to_channel sender message_type
  | .add_server_header_set to_channels sender message_type =>
      d.add_server_header_set to_channels sender message_type
  | .add_control_header message_type => d.add_control_header message_type

/-- Running a sequence of calls, first call first. -/
def run (d : Datagram) : List Call → Option Datagram
  | [] => some d
  | c :: cs => (c.apply d).bind fun d => run d cs

/-- The encoding of one call as the specification describes it: fixed-width integers
least significant byte first, a boolean as one byte, a string or blob as a two-byte
length tag and its bytes, a nested datagram verbatim, a header as count, recipients,
sender and type. -/
def Call.encoding : Call → List Nat
  | .add_bool v => [if v then 1 else 0]
  | .add_uint8 v => leBytes 1 v
  | .add_uint16 v => leBytes 2 v
  | .add_uint32 v => leBytes 4 v
  | .add_uint64 v => leBytes 8 v
  | .add_size v => leBytes 2 v
  | .add_channel v => leBytes 8 v
  | .add_doid v => leBytes 4 v
  | .add_zone v => leBytes 4 v
  | .add_location parent zone => leBytes 4 parent ++ leBytes 4 zone
  | .add_data data => data
  | .add_data_string str => str
  | .add_string str => leBytes 2 str.length ++ str
  | .add_string_c_str c_str =>
      leBytes 2 (c_str.takeWhile (fun c => c != 0)).length ++ c_str.takeWhile (fun c => c != 0)
  | .add_blob blob => leBytes 2 blob.length ++ blob
  | .add_blob_datagram dg => leBytes 2 dg.size ++ dg.bytes
  | .add_datagram dg => dg.bytes
  | .add_server_header to_channel sender message_type =>
      [1] ++ leBytes 8 to_channel ++ leBytes 8 sender ++ leBytes 2 message_type
  | .add_server_header_set to_channels sender message_type =>
      leBytes 1 to_channels.card ++ ((to_channels.sort (· ≤ ·)).map (leBytes 8)).flatten
        ++ leBytes 8 sender ++ leBytes 2 message_type
  | .add_control_header message_type => [1] ++ leBytes 8 1 ++ leBytes 2 message_type

/-- The lengths a call passes to `check_add_length`, in order. -/
def Call.lens : Call → List Nat
  | .add_bool _ => [1]
  | .add_uint8 _ => [1]
  | .add_uint16 _ => [2]
  | .add_uint32 _ => [4]
  | .add_uint64 _ => [8]
  | .add_size _ => [2]
  | .add_channel _ => [8]
  | .add_doid _ => [4]
  | .add_zone _ => [4]
  | .add_location _ _ => [8]
  | .add_data data => if data.length ≠ 0 then [data.length] else []
  | .add_data_string str => [str.length]
  | .add_string str => [2, str.length]
  | .add_string_c_str c_str => [2, (c_str.takeWhile (fun c => c != 0)).length]
  | .add_blob blob => [2, blob.length]
  | .add_blob_datagram dg => [2, dg.buf_end]
  | .add_datagram dg => [dg.buf_end]
  | .add_server_header _ _ _ => [1, 8, 8, 2]
  | .add_server_header_set to_channels _ _ => 1 :: List.replicate to_channels.card 8 ++ [8, 2]
  | .add_control_header _ => [1, 8, 2]

/-- What a call needs of the objects it reads: the written bytes of a nested Datagram
lie inside its array. -/
def Call.ArgsOk : Call → Prop
  | .add_blob_datagram dg => dg.buf_end ≤ dg.buf.length
  | .add_datagram dg => dg.buf_end ≤ dg.buf.length
  | _ => True

instance (c : Call) : Decidable c.ArgsOk := by
  cases c <;> simp only [Call.ArgsOk] <;> infer_instance

/-- A call of any method that appends: the methods of `Call`, or `add_buffer`. -/
inductive Op where
  | call (c : Call)
  | add_buffer (length : Nat)

/-- Running one operation; the pointer returned by `add_buffer` is dropped. -/
def Op.apply (d : Datagram) : Op → Option Datagram
  | .call c => c.apply d
  | .add_buffer length => (d.add_buffer length).map Prod.snd

/-- Running a sequence of operations, first operation first. -/
def runOps (d : Datagram) : List Op → Option Datagram
  | [] => some d
  | o :: os => (o.apply d).bind fun d => runOps d os

/-- The lengths an operation passes to `check_add_length`, in order. -/
def Op.lens : Op → List Nat
  | .call c => c.lens
  | .add_buffer length => [length]

/-- What an operation needs of the objects it reads. -/
def Op.ArgsOk : Op → Prop
  | .call c => c.ArgsOk
  | .add_buffer _ => True

instance (o : Op) : Decidable o.ArgsOk := by
  cases o <;> simp only [Op.ArgsOk] <;> infer_instance

/-- A call of a constructor of `Datagram`, with its arguments. -/
inductive Ctor where
  | default
  | copy (dg : Datagram)
  | ofVector (data : List Nat)
  | ofString (data : List Nat)
  | ofRaw (data : List Nat) (length : Nat)
  | ofServerHeader (to_channel from_channel message_type : Nat)
  | ofServerHeaderSet (to_channels : Finset Nat) (from_channel message_type : Nat)
  | ofControlHeader (message_type : Nat)

/-- Running a constructor. -/
def Ctor.build : Ctor → Option Datagram
  | .default => some Datagram.default
  | .copy dg => Datagram.copy dg
  | .ofVector data => Datagram.ofVector data
  | .ofString data => Datagram.ofString data
  | .ofRaw data length => Datagram.ofRaw data length
  | .ofServerHeader to_channel from_channel message_type =>
      Datagram.ofServerHeader to_channel from_channel message_type
  | .ofServerHeaderSet to_channels from_channel message_type =>
      Datagram.ofServerHeaderSet to_channels from_channel message_type
  | .ofControlHeader message_type => Datagram.ofControlHeader message_type

/-! ## Predicates used in the statements -/

namespace Datagram

/-- The representation invariant of a Datagram whose sizes never left the 16-bit range:
the written length is within the recorded capacity, the recorded capacity is within the
allocated array, and the capacity is a `uint16_t` value. -/
def Valid (d : Datagram) : Prop :=
  d.buf_end ≤ d.buf_cap ∧ d.buf_cap ≤ d.buf.length ∧ d.buf_cap ≤ 65535

instance (d : Datagram) : Decidable (Valid d) := by
  unfold Valid; infer_instance

/-- The capacity that `check_add_length(n)` computes at capacity `cap` and length `e`,
before it is stored in the 16-bit member `buf_cap`. -/
def grow (cap e n : Nat) : Nat := if e + n > cap then cap + n + 64 else cap

/-- The capacity after a run of `check_add_length` calls with the given lengths, each
followed by advancing the length. -/
def growAll : Nat → Nat → List Nat → Nat
  | cap, _, [] => cap
  | cap, e, n :: ns => growAll (grow cap e n) (e + n) ns

/-- No capacity computed along a run of appends of the given lengths, started at
capacity `cap` and length `e`, exceeds `65535`, the largest `dgsize_t` value. -/
def Fits : Nat → Nat → List Nat → Prop
  | _, _, [] => True
  | cap, e, n :: ns => grow cap e n ≤ 65535 ∧ Fits (grow cap e n) (e + n) ns

instance instDecidableFits : (cap e : Nat) → (ns : List Nat) → Decidable (Fits cap e ns)
  | _, _, [] => isTrue trivial
  | cap, e, n :: ns =>
    have := instDecidableFits (grow cap e n) (e + n) ns
    inferInstanceAs (Decidable (grow cap e n ≤ 65535 ∧ Fits (grow cap e n) (e + n) ns))

/-- One growth-checked copy, the body shared by the append methods:
`check_add_length(n); memcpy(buf + buf_end, src, n); buf_end += n;` with `n` the length
of `src`. -/
def appendChunk (d : Datagram) (src : List Nat) : Option Datagram :=
  (d.check_add_length src.length).bind fun d => d.put src src.length

/-- A run of growth-checked copies. -/
def appendChunks (d : Datagram) : List (List Nat) → Option Datagram
  | [] => some d
  | c :: cs => (d.appendChunk c).bind fun d => d.appendChunks cs

end Datagram

/-- The integer a reader on a little-endian host obtains from a byte string: the inverse
of `leBytes`. -/
def leValue : List Nat → Nat
  | [] => 0
  | b :: bs => b + 256 * leValue bs

/-- A byte string of `n` zero bytes, the payload of the large examples. -/
def zeros (n : Nat) : List Nat := List.replicate n 0

/-- What a constructor needs of its arguments for the sizes to fit `dgsize_t`: a source
of at most 65535 bytes, a raw pointer that is readable for `length` bytes, a source
Datagram whose written bytes lie inside its array, and a recipient set whose header
fits. -/
def Ctor.Ok : Ctor → Prop
  | .default => True
  | .copy dg => dg.buf_end ≤ dg.buf.length ∧ dg.buf_end ≤ 65535
  | .ofVector data => data.length ≤ 65535
  | .ofString data => data.length ≤ 65535
  | .ofRaw data length => length ≤ data.length ∧ length ≤ 65535
  | .ofServerHeader _ _ _ => True
  | .ofServerHeaderSet to_channels _ _ =>
      Datagram.Fits 64 0 (1 :: List.replicate to_channels.card 8 ++ [8, 2])
  | .ofControlHeader _ => True

instance (c : Ctor) : Decidable c.Ok := by
  cases c <;> simp only [Ctor.Ok] <;> infer_instance

/-- The byte strings a call copies, one for each `check_add_length` it makes. -/
def Call.chunks : Call → List (List Nat)
  | .add_bool v => [[if v then 1 else 0]]
  | .add_uint8 v => [leBytes 1 v]
  | .add_uint16 v => [leBytes 2 v]
  | .add_uint32 v => [leBytes 4 v]
  | .add_uint64 v => [leBytes 8 v]
  | .add_size v => [leBytes 2 v]
  | .add_channel v => [leBytes 8 v]
  | .add_doid v => [leBytes 4 v]
  | .add_zone v => [leBytes 4 v]
  | .add_location parent zone => [leBytes 4 parent ++ leBytes 4 zone]
  | .add_data data => if data.length ≠ 0 then [data] else []
  | .add_data_string str => [str]
  | .add_string str => [leBytes 2 str.length, str]
  | .add_string_c_str c_str =>
      [leBytes 2 (c_str.takeWhile (fun c => c != 0)).length, c_str.takeWhile (fun c => c != 0)]
  | .add_blob blob => [leBytes 2 blob.length, blob]
  | .add_blob_datagram dg => [leBytes 2 dg.size, dg.bytes]
  | .add_datagram dg => [dg.bytes]
  | .add_server_header to_channel sender message_type =>
      [[1], leBytes 8 to_channel, leBytes 8 sender, leBytes 2 message_type]
  | .add_server_header_set to_channels sender message_type =>
      leBytes 1 to_channels.card :: (to_channels.sort (· ≤ ·)).map (leBytes 8)
        ++ [leBytes 8 sender, leBytes 2 message_type]
  | .add_control_header message_type => [[1], leBytes 8 1, leBytes 2 message_type]

/-! ## `Connection.cxx`

The WebSocket functions of the host (`emscripten_websocket_new`, `_close`, `_delete`) are
outside the repository. They are modelled by a `Host` that answers each call from the
calls made so far, and every call is appended to a log together with its answer; the
theorems hold for every `Host`. Log output (`logger()`, `js_flush`) goes to the
diagnostic sink and is left out. A `std::string` or C string is a `String`: text without
an embedded NUL, so that `url.c_str()` is the whole url. -/

/-- The result code for success; `Connection::disconnect` notes
`EMSCRIPTEN_RESULT_SUCCESS == 0`. -/
def EMSCRIPTEN_RESULT_SUCCESS : Int := 0

/-- One call of the host's WebSocket interface: its arguments and the value it returned.
For `emscripten_websocket_new` the arguments are the fields of
`EmscriptenWebSocketCreateAttributes`. -/
inductive SocketCall where
  | emscripten_websocket_new (url protocols : String) (createOnMainThread : Int) (result : Int)
  | emscripten_websocket_close (socket : Int) (code : Nat) (reason : String) (result : Int)
  | emscripten_websocket_delete (socket : Int) (result : Int)
deriving DecidableEq, Repr

/-- The answers of the host, each a function of the calls made so far and of the
arguments of the call. -/
structure Host where
  emscripten_websocket_new : List SocketCall → String → String → Int → Int
  emscripten_websocket_close : List SocketCall → Int → Nat → String → Int
  emscripten_websocket_delete : List SocketCall → Int → Int

/-- The data member of `class Connection` that the methods below use: the socket handle
`m_socket`, 0 when there is no socket. -/
structure Connection where
  m_socket : Int
deriving DecidableEq, Repr

namespace Connection

/-- Method `void Connection::connect_socket(std::string url)`: the new state and the new
log. The method does not read the old state `_c`. -/
def connect_socket (host : Host) (_c : Connection) (log : List SocketCall) (url : String) :
    Connection × List SocketCall :=
  let url := "wss://" ++ url
  let r := host.emscripten_websocket_new log url "binary" 1
  ({ m_socket := r }, log ++ [.emscripten_websocket_new url "binary" 1 r])

/-- Method `EMSCRIPTEN_RESULT Connection::disconnect(unsigned short code,
const char *reason)`: the returned result, the new state and the new log. -/
def disconnect (host : Host) (c : Connection) (log : List SocketCall) (code : Nat)
    (reason : String) : Int × Connection × List SocketCall :=
  if c.m_socket = 0 then (EMSCRIPTEN_RESULT_SUCCESS, c, log)
  else
    let res := host.emscripten_websocket_close log c.m_socket code reason
    let log1 := log ++ [.emscripten_websocket_close c.m_socket code reason res]
    if res ≠ EMSCRIPTEN_RESULT_SUCCESS then (res, c, log1)
    else
      let res2 := host.emscripten_websocket_delete log1 c.m_socket
      (res2, { m_socket := 0 }, log1 ++ [.emscripten_websocket_delete c.m_socket res2])

end Connection

/-- The effect of one logged call on the list of live socket handles: a successful
`emscripten_websocket_new` (positive handle) adds its handle, a successful
`emscripten_websocket_delete` removes its handle. -/
def liveStep (live : List Int) : SocketCall → List Int
  | .emscripten_websocket_new _ _ _ result => if result > 0 then live ++ [result] else live
  | .emscripten_websocket_close _ _ _ _ => live
  | .emscripten_websocket_delete socket result =>
      if result = EMSCRIPTEN_RESULT_SUCCESS then live.filter (fun h => h != socket) else live

/-- The socket handles that a log has created and not deleted. -/
def liveSockets (log : List SocketCall) : List Int := log.foldl liveStep []

/-- A host that hands out the handles 1, 2, 3, … and accepts every close and delete. -/
def freshHost : Host where
  emscripten_websocket_new := fun log _ _ _ =>
    (log.filter fun c => match c with
      | .emscripten_websocket_new _ _ _ _ => true
      | _ => false).length + 1
  emscripten_websocket_close := fun _ _ _ _ => 0
  emscripten_websocket_delete := fun _ _ => 0

/-- A host whose `emscripten_websocket_close` answers `EMSCRIPTEN_RESULT_INVALID_TARGET`
(-3), as for a handle the host does not know. -/
def closeFailsHost : Host where
  emscripten_websocket_new := fun _ _ _ _ => 1
  emscripten_websocket_close := fun _ _ _ _ => -3
  emscripten_websocket_delete := fun _ _ => 0

/-! ## `ClientConnection.cxx`

`ClientConnection` calls `connect_socket` and `logger()` as its own methods, so its state
is that of a `Connection`; its declaration, `ClientConnection.hxx`, is not under `src/`. -/

namespace ClientConnection

/-- Method `void ClientConnection::connect(std::string uri, uint32_t dc_hash,
std::string version)`: the new state and the new log of host calls. The body writes
`uri`, `version` and `dc_hash` to the diagnostic sink and calls `connect_socket(uri)`;
`_dc_hash` and `_version` reach nothing else. -/
def connect (host : Host) (c : Connection) (log : List SocketCall) (uri : String)
    (_dc_hash : Nat) (_version : String) : Connection × List SocketCall :=
  c.connect_socket host log uri

/-- Method `void ClientConnection::disconnect()`, whose body is empty: the state and the
log of host calls are returned as they are. -/
def disconnect (c : Connection) (log : List SocketCall) : Connection × List SocketCall :=
  (c, log)

end ClientConnection

/-! ## The build configurations of `types.hxx` -/

/-- The two configurations that `#ifdef ASTRON_128BIT_CHANNELS` selects between. -/
inductive Build where
  | default
  | ASTRON_128BIT_CHANNELS
deriving DecidableEq, Repr

/-- Modelled from the spec: `uint128_t` is declared in `uint128.hxx`, which is not under
`src/`; the spec gives the channel of the alternate build a width of 16 bytes. -/
def sizeof_uint128_t : Nat := 16

/-- The value of `sizeof(channel_t)`: `uint64_t`, or `uint128_t` in the alternate build. -/
def Build.sizeof_channel_t : Build → Nat
  | .default => 8
  | .ASTRON_128BIT_CHANNELS => sizeof_uint128_t

/-- The value of `sizeof(doid_t)`: `uint32_t`, or `uint64_t` in the alternate build. -/
def Build.sizeof_doid_t : Build → Nat
  | .default => 4
  | .ASTRON_128BIT_CHANNELS => 8

/-- The value of `sizeof(zone_t)`: `uint32_t`, or `uint64_t` in the alternate build. -/
def Build.sizeof_zone_t : Build → Nat
  | .default => 4
  | .ASTRON_128BIT_CHANNELS => 8

/-- Constant `CHANNEL_SIZE_BYTES` in a build: its definition stands after the `#endif`, so
it is the same in both. -/
def Build.CHANNEL_SIZE_BYTES (_b : Build) : Nat := astron.CHANNEL_SIZE_BYTES

/-- Constant `DOID_SIZE_BYTES` in a build: the same in both. -/
def Build.DOID_SIZE_BYTES (_b : Build) : Nat := astron.DOID_SIZE_BYTES

/-- Constant `ZONE_SIZE_BYTES` in a build: the same in both. -/
def Build.ZONE_SIZE_BYTES (_b : Build) : Nat := astron.ZONE_SIZE_BYTES

/-- The outcome that C24 asks of an append of the bytes `src` that takes `d` to `d'`: the
length grows by the number of bytes, stays within the capacity, the first `buf_end` bytes
are unchanged and the new bytes stand at the offsets `buf_end`, …,
`buf_end + len - 1`. -/
def Datagram.Appended (d : Datagram) (src : List Nat) (d' : Datagram) : Prop :=
  d'.buf_end = d.buf_end + src.length ∧ d'.buf_end ≤ d'.buf_cap ∧
  d'.get_data.take d.buf_end = d.get_data.take d.buf_end ∧
  (d'.get_data.drop d.buf_end).take src.length = src

/-- A step keeps the array behind `buf` at least `buf_cap` long whenever it returns. -/
def Datagram.KeepsAlloc (f : Datagram → Option Datagram) : Prop :=
  ∀ d d' : Datagram, d.buf_cap ≤ d.buf.length → f d = some d' → d'.buf_cap ≤ d'.buf.length

/-! # Theorems -/

/-! ## Arrays and single steps -/

theorem memcpy_eq_some {dst src : List Nat} {off n : Nat}
    (h1 : off + n ≤ dst.length) (h2 : n ≤ src.length) :
    memcpy dst off src n = some (dst.take off ++ src.take n ++ dst.drop (off + n)) := by
  simp [memcpy, h1, h2]

theorem leBytes_length (n v : Nat) : (leBytes n v).length = n := by
  induction n generalizing v with
  | zero => rfl
  | succ n ih => simp [leBytes, ih]

@[simp]
theorem newArray_length (n : Nat) : (newArray n).length = n := List.length_replicate _ _

theorem dgsize_t_of_le {n : Nat} (h : n ≤ 65535) : dgsize_t n = n := by
  unfold dgsize_t; omega

theorem take_put_buf (b src : List Nat) (e : Nat) (h : e ≤ b.length) :
    (b.take e ++ src ++ b.drop (e + src.length)).take (e + src.length) = b.take e ++ src := by
  have hl : (b.take e ++ src).length = e + src.length := by
    simp [List.length_take, Nat.min_eq_left h]
  rw [List.take_append_of_le_length (by omega), List.take_of_length_le (by omega)]

namespace Datagram

theorem check_add_length_fit {d : Datagram} {n : Nat} (hn : n ≤ 65535)
    (h : d.buf_end + n ≤ d.buf_cap) : d.check_add_length n = some d := by
  simp [check_add_length, dgsize_t_of_le hn]
  omega

theorem check_add_length_grow {d : Datagram} {n : Nat} (hn : n ≤ 65535)
    (hc : d.buf_cap ≤ d.buf.length) (h : d.buf_cap < d.buf_end + n) :
    d.check_add_length n = some
      { buf := d.buf.take d.buf_cap ++ newArray (n + 64),
        buf_cap := dgsize_t (d.buf_cap + n + 64), buf_end := d.buf_end } := by
  have h1 : 0 + d.buf_cap ≤ (newArray (d.buf_cap + n + 64)).length := by
    simp [newArray]; omega
  simp only [check_add_length, dgsize_t_of_le hn, gt_iff_lt, h, if_true, memcpy_eq_some h1 hc,
    Option.some_bind]
  simp [newArray]
  omega

theorem put_eq_some {d : Datagram} {src : List Nat}
    (h1 : d.buf_end + src.length ≤ d.buf.length) :
    d.put src src.length = some
      { buf := d.buf.take d.buf_end ++ src ++ d.buf.drop (d.buf_end + src.length),
        buf_cap := d.buf_cap, buf_end := dgsize_t (d.buf_end + src.length) } := by
  simp [put, memcpy_eq_some h1 (le_refl _)]

theorem put_take {d : Datagram} {src : List Nat} {n : Nat} (h : n ≤ src.length) :
    d.put (src.take n) (src.take n).length = d.put src n := by
  have hl : (src.take n).length = n := by simp [List.length_take, Nat.min_eq_left h]
  simp [put, memcpy, hl, h, List.take_take]

theorem put_put {d : Datagram} {a b : List Nat}
    (h1 : d.buf_end + a.length + b.length ≤ d.buf.length)
    (h2 : d.buf_end + a.length + b.length ≤ 65535) :
    ((d.put a a.length).bind fun d => d.put b b.length) = d.put (a ++ b) (a ++ b).length := by
  have e1 : d.buf_end ≤ d.buf.length := by omega
  rw [put_eq_some (by omega), Option.some_bind, put_eq_some, put_eq_some]
  · have hl : (List.take d.buf_end d.buf ++ a).length = d.buf_end + a.length := by
      simp [List.length_take, Nat.min_eq_left e1]
    have hd : List.drop (d.buf_end + a.length + b.length)
        (List.take d.buf_end d.buf ++ a ++ List.drop (d.buf_end + a.length) d.buf)
        = List.drop (d.buf_end + a.length + b.length) d.buf := by
      rw [show d.buf_end + a.length + b.length
        = (List.take d.buf_end d.buf ++ a).length + b.length by omega, List.drop_append,
        List.drop_drop, hl]
    have ht : List.take (d.buf_end + a.length)
        (List.take d.buf_end d.buf ++ a ++ List.drop (d.buf_end + a.length) d.buf)
        = List.take d.buf_end d.buf ++ a := by
      rw [List.take_append_of_le_length (by omega), List.take_of_length_le (by omega)]
    simp only [dgsize_t_of_le (show d.buf_end + a.length ≤ 65535 by omega)]
    rw [ht, hd]
    simp [Nat.add_assoc]
  · simp; omega
  · simp [dgsize_t_of_le (show d.buf_end + a.length ≤ 65535 by omega), List.length_take,
      Nat.min_eq_left e1]
    omega

theorem appendChunk_spec {d : Datagram} {src : List Nat} (hv : d.Valid)
    (hf : grow d.buf_cap d.buf_end src.length ≤ 65535) :
    ∃ d', d.appendChunk src = some d' ∧ d'.Valid ∧
      d'.buf_cap = grow d.buf_cap d.buf_end src.length ∧
      d'.buf_end = d.buf_end + src.length ∧ d'.bytes = d.bytes ++ src := by
  obtain ⟨hec, hcl, hc⟩ := hv
  by_cases h : d.buf_end + src.length ≤ d.buf_cap
  · have hg : grow d.buf_cap d.buf_end src.length = d.buf_cap := by
      simp [grow]; omega
    refine ⟨{ buf := d.buf.take d.buf_end ++ src ++ d.buf.drop (d.buf_end + src.length),
              buf_cap := d.buf_cap, buf_end := d.buf_end + src.length }, ?_, ?_, ?_, rfl, ?_⟩
    · rw [appendChunk, check_add_length_fit (by omega) h, Option.some_bind,
        put_eq_some (by omega), dgsize_t_of_le (by omega)]
    · refine ⟨h, ?_, hc⟩
      simp [List.length_take, List.length_drop]; omega
    · exact hg.symm
    · simp only [bytes, size, get_data]
      exact take_put_buf _ _ _ (by omega)
  · have hg : grow d.buf_cap d.buf_end src.length = d.buf_cap + src.length + 64 := by
      simp [grow]; omega
    rw [hg] at hf
    have hmod : dgsize_t (d.buf_cap + src.length + 64) = d.buf_cap + src.length + 64 :=
      dgsize_t_of_le hf
    refine ⟨{ buf := (d.buf.take d.buf_cap ++ newArray (src.length + 64)).take d.buf_end
                ++ src ++ (d.buf.take d.buf_cap ++ newArray (src.length + 64)).drop
                  (d.buf_end + src.length),
              buf_cap := dgsize_t (d.buf_cap + src.length + 64),
              buf_end := d.buf_end + src.length }, ?_, ?_, ?_, rfl, ?_⟩
    · rw [appendChunk, check_add_length_grow (by omega) hcl (by omega), Option.some_bind,
        put_eq_some]
      · simp only [dgsize_t_of_le (show d.buf_end + src.length ≤ 65535 by omega)]
      · simp [List.length_take, Nat.min_eq_left hcl]; omega
    · simp [Valid, hmod, List.length_take, List.length_drop, Nat.min_eq_left hcl]
      omega
    · simp [hmod, hg]
    · simp only [bytes, size, get_data]
      rw [take_put_buf _ _ _ (by simp [List.length_take, Nat.min_eq_left hcl]; omega)]
      congr 1
      rw [List.take_append_of_le_length (by simp [List.length_take, Nat.min_eq_left hcl]; omega),
        List.take_take, Nat.min_eq_left hec]

/-! ## Runs of chunks -/

theorem Fits_append (cap e : Nat) (l1 l2 : List Nat) :
    Fits cap e (l1 ++ l2) ↔ Fits cap e l1 ∧ Fits (growAll cap e l1) (e + l1.sum) l2 := by
  induction l1 generalizing cap e with
  | nil => simp [Fits, growAll]
  | cons n ns ih => simp [Fits, growAll, ih, and_assoc, Nat.add_assoc]

theorem growAll_append (cap e : Nat) (l1 l2 : List Nat) :
    growAll cap e (l1 ++ l2) = growAll (growAll cap e l1) (e + l1.sum) l2 := by
  induction l1 generalizing cap e with
  | nil => simp [growAll]
  | cons n ns ih => simp [growAll, ih, Nat.add_assoc]

theorem appendChunks_append (d : Datagram) (l1 l2 : List (List Nat)) :
    d.appendChunks (l1 ++ l2) = (d.appendChunks l1).bind fun d => d.appendChunks l2 := by
  induction l1 generalizing d with
  | nil => simp [appendChunks]
  | cons c cs ih =>
    simp only [List.cons_append, appendChunks, Option.bind_assoc]
    congr 1; funext d1; exact ih d1

theorem appendChunks_spec {d : Datagram} {cs : List (List Nat)} (hv : d.Valid)
    (hf : Fits d.buf_cap d.buf_end (cs.map List.length)) :
    ∃ d', d.appendChunks cs = some d' ∧ d'.Valid ∧
      d'.buf_cap = growAll d.buf_cap d.buf_end (cs.map List.length) ∧
      d'.buf_end = d.buf_end + cs.flatten.length ∧ d'.bytes = d.bytes ++ cs.flatten := by
  induction cs generalizing d with
  | nil => exact ⟨d, rfl, hv, rfl, by simp, by simp⟩
  | cons c cs ih =>
    obtain ⟨h1, h2⟩ := hf
    obtain ⟨d1, e1, v1, c1, n1, b1⟩ := appendChunk_spec hv h1
    rw [← c1, ← n1] at h2
    obtain ⟨d2, e2, v2, c2, n2, b2⟩ := ih v1 h2
    refine ⟨d2, by simp [appendChunks, e1, e2], v2, ?_, ?_, ?_⟩
    · simp [growAll, c2, c1, n1]
    · simp [n2, n1, Nat.add_assoc]
    · simp [b2, b1]

end Datagram
/-! ## Calls as runs of chunks -/

namespace Datagram

theorem add_channels_eq (d : Datagram) (cs : List Nat) :
    d.add_channels cs = d.appendChunks (cs.map (leBytes 8)) := by
  induction cs generalizing d with
  | nil => rfl
  | cons c cs ih =>
    simp only [add_channels, List.map_cons, appendChunks]
    congr 1; funext d1; exact ih d1

theorem add_location_eq {d : Datagram} (parent zone : Nat) (hv : d.Valid)
    (hf : grow d.buf_cap d.buf_end 8 ≤ 65535) :
    d.add_location parent zone = d.appendChunk (leBytes 4 parent ++ leBytes 4 zone) := by
  obtain ⟨hec, hcl, hc⟩ := hv
  have hlen : (leBytes 4 parent ++ leBytes 4 zone).length = 8 := by simp [leBytes_length]
  have h4 : ∀ v, (leBytes 4 v).length = 4 := fun v => leBytes_length 4 v
  have key : ∀ d1 : Datagram, d1.buf_end + 8 ≤ d1.buf.length → d1.buf_end + 8 ≤ 65535 →
      ((d1.put (leBytes DOID_SIZE_BYTES parent) DOID_SIZE_BYTES).bind fun d =>
        d.put (leBytes ZONE_SIZE_BYTES zone) ZONE_SIZE_BYTES)
      = d1.put (leBytes 4 parent ++ leBytes 4 zone) (leBytes 4 parent ++ leBytes 4 zone).length := by
    intro d1 a b
    have := put_put (d := d1) (a := leBytes 4 parent) (b := leBytes 4 zone)
      (by rw [h4, h4]; omega) (by rw [h4, h4]; omega)
    rw [h4, h4] at this
    exact this
  unfold add_location appendChunk
  rw [hlen]
  show (d.check_add_length 8).bind _ = _
  by_cases h : d.buf_end + 8 ≤ d.buf_cap
  · rw [check_add_length_fit (by omega) h, Option.some_bind, Option.some_bind, ← hlen]
    exact key d (by omega) (by omega)
  · have hg : grow d.buf_cap d.buf_end 8 = d.buf_cap + 8 + 64 := by simp [grow]; omega
    rw [check_add_length_grow (by omega) hcl (by omega), Option.some_bind, Option.some_bind,
      ← hlen]
    exact key _ (by simp [List.length_take, Nat.min_eq_left hcl]; omega) (by simp; omega)

end Datagram

open Datagram

theorem lens_eq_map_length (c : Call) (h : c.ArgsOk) : c.chunks.map List.length = c.lens := by
  cases c <;> simp [Call.chunks, Call.lens, leBytes_length]
  case add_data data => split <;> simp
  case add_blob_datagram dg =>
    simpa [Call.ArgsOk, bytes, size, get_data] using h
  case add_datagram dg =>
    simpa [Call.ArgsOk, bytes, size, get_data] using h
  case add_server_header_set to_channels sender message_type =>
    rw [List.eq_replicate_iff]
    simp [leBytes_length]

theorem encoding_eq_flatten (c : Call) : c.chunks.flatten = c.encoding := by
  cases c <;> simp [Call.chunks, Call.encoding, leBytes]
  case add_data data =>
    split
    · simp_all
    · simp

theorem leBytes_two_dgsize_t (v : Nat) : leBytes 2 (dgsize_t v) = leBytes 2 v := by
  simp only [leBytes, dgsize_t, List.cons.injEq, and_true]
  omega

namespace Datagram

theorem appendChunks_one (d : Datagram) (c : List Nat) :
    d.appendChunks [c] = d.appendChunk c := by
  simp only [appendChunks]
  cases d.appendChunk c <;> rfl

theorem appendChunks_two (d : Datagram) (a b : List Nat) :
    d.appendChunks [a, b] = (d.appendChunk a).bind fun d => d.appendChunk b := by
  simp only [appendChunks]
  congr 1; funext d1
  cases d1.appendChunk b <;> rfl

theorem add_uint8_eq (d : Datagram) (v : Nat) : d.add_uint8 v = d.appendChunk (leBytes 1 v) := rfl

theorem add_uint16_eq (d : Datagram) (v : Nat) : d.add_uint16 v = d.appendChunk (leBytes 2 v) :=
  rfl

theorem add_channel_eq (d : Datagram) (v : Nat) :
    d.add_channel v = d.appendChunk (leBytes 8 v) := rfl

theorem add_size_eq (d : Datagram) (v : Nat) : d.add_size v = d.appendChunk (leBytes 2 v) := by
  rw [← leBytes_two_dgsize_t]; rfl

theorem put_bytes (d dg : Datagram) (h : dg.buf_end ≤ dg.buf.length) :
    d.put dg.bytes dg.bytes.length = d.put dg.buf dg.buf_end := by
  simpa [bytes, size, get_data] using put_take (d := d) h

theorem bytes_length (dg : Datagram) (h : dg.buf_end ≤ dg.buf.length) :
    dg.bytes.length = dg.buf_end := by
  simp [bytes, size, get_data, List.length_take, Nat.min_eq_left h]

theorem add_datagram_eq (d dg : Datagram) (h : dg.buf_end ≤ dg.buf.length) :
    d.add_datagram dg = d.appendChunk dg.bytes := by
  unfold add_datagram appendChunk
  rw [bytes_length dg h]
  congr 1; funext d1
  rw [← put_bytes d1 dg h, bytes_length dg h]

end Datagram

theorem apply_eq_appendChunks {d : Datagram} (c : Call) (hv : d.Valid) (ha : c.ArgsOk)
    (hf : Fits d.buf_cap d.buf_end c.lens) : c.apply d = d.appendChunks c.chunks := by
  cases c <;> simp only [Call.apply, Call.chunks]
  case add_bool v => cases v <;> simp [add_bool, appendChunks_one, add_uint8_eq, leBytes]
  case add_uint8 v => rw [appendChunks_one]; rfl
  case add_uint16 v => rw [appendChunks_one]; rfl
  case add_uint32 v => rw [appendChunks_one]; rfl
  case add_uint64 v => rw [appendChunks_one]; rfl
  case add_size v => rw [appendChunks_one, add_size_eq]
  case add_channel v => rw [appendChunks_one]; rfl
  case add_doid v => rw [appendChunks_one]; rfl
  case add_zone v =>
    rw [appendChunks_one]
    have : ZONE_SIZE_BYTES = 4 := by decide
    simp only [add_zone, this]; rfl
  case add_location parent zone =>
    rw [appendChunks_one]; exact add_location_eq parent zone hv hf.1
  case add_data data =>
    unfold add_data
    split
    · rw [appendChunks_one]; rfl
    · rfl
  case add_data_string str => rw [appendChunks_one]; rfl
  case add_string str => rw [appendChunks_two]; rfl
  case add_string_c_str c_str => rw [appendChunks_two]; rfl
  case add_blob blob => rw [appendChunks_two]; rfl
  case add_blob_datagram dg =>
    rw [appendChunks_two, ← add_size_eq]
    unfold add_blob_datagram
    congr 1; funext d1
    exact add_datagram_eq d1 dg ha
  case add_datagram dg => rw [appendChunks_one]; exact add_datagram_eq d dg ha
  case add_server_header to_channel sender message_type =>
    simp only [add_server_header, appendChunks, add_uint8_eq, add_channel_eq, add_uint16_eq,
      leBytes]
    congr 1; funext d1; congr 1; funext d2; congr 1; funext d3
    cases d3.appendChunk _ <;> rfl
  case add_server_header_set to_channels sender message_type =>
    simp only [add_server_header_set, appendChunks, add_uint8_eq, add_channels_eq,
      add_channel_eq, add_uint16_eq]
    congr 1; funext d1
    show _ = d1.appendChunks (_ ++ _)
    rw [appendChunks_append]
    congr 1; funext d2
    rw [appendChunks_two]
  case add_control_header message_type =>
    simp only [add_control_header, appendChunks, add_uint8_eq, add_channel_eq, add_uint16_eq,
      leBytes, CONTROL_MESSAGE]
    congr 1; funext d1; congr 1; funext d2
    cases d2.appendChunk _ <;> rfl

/-- One call on a valid Datagram whose capacity computations fit 16 bits: it returns, keeps
the Datagram valid, and appends exactly its encoding. -/
theorem apply_spec {d : Datagram} (c : Call) (hv : d.Valid) (ha : c.ArgsOk)
    (hf : Fits d.buf_cap d.buf_end c.lens) :
    ∃ d', c.apply d = some d' ∧ d'.Valid ∧ d'.buf_cap = growAll d.buf_cap d.buf_end c.lens ∧
      d'.buf_end = d.buf_end + c.encoding.length ∧ d'.bytes = d.bytes ++ c.encoding := by
  rw [apply_eq_appendChunks c hv ha hf, ← encoding_eq_flatten, ← lens_eq_map_length c ha]
  exact appendChunks_spec hv (by rw [lens_eq_map_length c ha]; exact hf)

theorem lens_sum (c : Call) (ha : c.ArgsOk) : c.lens.sum = c.encoding.length := by
  rw [← lens_eq_map_length c ha, ← encoding_eq_flatten, List.length_flatten]

theorem run_spec {d : Datagram} (cs : List Call) (hv : d.Valid) (ha : ∀ c ∈ cs, c.ArgsOk)
    (hf : Fits d.buf_cap d.buf_end (cs.flatMap Call.lens)) :
    ∃ d', run d cs = some d' ∧ d'.Valid ∧
      d'.buf_end = d.buf_end + ((cs.map Call.encoding).flatten).length ∧
      d'.bytes = d.bytes ++ (cs.map Call.encoding).flatten := by
  induction cs generalizing d with
  | nil => exact ⟨d, rfl, hv, by simp, by simp⟩
  | cons c cs ih =>
    have hc : c.ArgsOk := ha c (List.mem_cons_self _ _)
    rw [List.flatMap_cons, Fits_append] at hf
    obtain ⟨d1, e1, v1, c1, n1, b1⟩ := apply_spec c hv hc hf.1
    have hf2 := hf.2
    rw [lens_sum c hc, ← c1, ← n1] at hf2
    obtain ⟨d2, e2, v2, n2, b2⟩ := ih v1 (fun x hx => ha x (List.mem_cons_of_mem _ hx)) hf2
    refine ⟨d2, by simp [run, e1, e2], v2, ?_, ?_⟩
    · simp [n2, n1, Nat.add_assoc]
    · simp [b2, b1]

/-! ## Growth without the 16-bit assumption -/

namespace Datagram

/-- A growth-checked copy that reallocates: whatever the 16-bit stores do, the copy is in
bounds and the array holds the old written bytes followed by the new ones. -/
theorem appendChunk_grow {d : Datagram} {src : List Nat} (hec : d.buf_end ≤ d.buf_cap)
    (hcl : d.buf_cap ≤ d.buf.length) (hn : src.length ≤ 65535)
    (h : d.buf_cap < d.buf_end + src.length) :
    ∃ d', d.appendChunk src = some d' ∧
      d'.buf_end = dgsize_t (d.buf_end + src.length) ∧
      d'.buf_cap = dgsize_t (d.buf_cap + src.length + 64) ∧
      d'.buf.length = d.buf_cap + src.length + 64 ∧
      d'.buf.take (d.buf_end + src.length) = d.buf.take d.buf_end ++ src := by
  have hl : (d.buf.take d.buf_cap ++ newArray (src.length + 64)).length
      = d.buf_cap + src.length + 64 := by
    simp [List.length_take, Nat.min_eq_left hcl]; omega
  refine ⟨{ buf := (d.buf.take d.buf_cap ++ newArray (src.length + 64)).take d.buf_end
              ++ src ++ (d.buf.take d.buf_cap ++ newArray (src.length + 64)).drop
                (d.buf_end + src.length),
            buf_cap := dgsize_t (d.buf_cap + src.length + 64),
            buf_end := dgsize_t (d.buf_end + src.length) }, ?_, rfl, rfl, ?_, ?_⟩
  · rw [appendChunk, check_add_length_grow hn hcl h, Option.some_bind, put_eq_some]
    simp only [hl]; omega
  · simp only [List.length_append, List.length_take, List.length_drop, hl]
    omega
  · rw [take_put_buf _ _ _ (by rw [hl]; omega)]
    congr 1
    rw [List.take_append_of_le_length (by simp [List.length_take, Nat.min_eq_left hcl]; omega),
      List.take_take, Nat.min_eq_left hec]

end Datagram

theorem zeros_length (n : Nat) : (zeros n).length = n := List.length_replicate _ _

/-- A sufficient condition for `Fits`: the capacity is at most twice the length plus 64
(true of every constructor) and twice the final length plus 128 is at most 65535. -/
theorem Fits_of_total (cap e : Nat) (ns : List Nat) (h1 : cap ≤ 2 * e + 64)
    (h2 : 2 * (e + ns.sum) + 128 ≤ 65535) : Fits cap e ns := by
  induction ns generalizing cap e with
  | nil => trivial
  | cons n ns ih =>
    simp only [List.sum_cons] at h2
    have hg : grow cap e n ≤ 2 * (e + n) + 64 := by unfold grow; split <;> omega
    exact ⟨by omega, ih _ _ hg (by omega)⟩

/-- A simple sufficient condition for the hypothesis of the sequence theorems: the total
encoded length is at most 32703 bytes. -/
theorem fits_of_encoded_length (cs : List Call) (ha : ∀ c ∈ cs, c.ArgsOk)
    (h : (cs.map Call.encoding).flatten.length ≤ 32703) :
    Fits 64 0 (cs.flatMap Call.lens) := by
  have hs : ∀ l : List Call, (∀ c ∈ l, c.ArgsOk) →
      (l.flatMap Call.lens).sum = (l.map Call.encoding).flatten.length := by
    intro l
    induction l with
    | nil => intro _; rfl
    | cons c l ih =>
      intro hl
      simp only [List.flatMap_cons, List.sum_append, List.map_cons, List.flatten_cons,
        List.length_append, lens_sum c (hl c (List.mem_cons_self _ _)),
        ih (fun x hx => hl x (List.mem_cons_of_mem _ hx))]
  exact Fits_of_total _ _ _ (by decide) (by rw [hs cs ha]; omega)

/-! ## C1 -/

/-- C1, as amended: for every finite sequence of append calls applied to a
default-constructed Datagram in which no capacity computed by `check_add_length` exceeds
65535 and every nested Datagram argument is an object other than the receiver (a `Call`
holds the members such an object has at the call) with its written bytes inside its array,
the run returns, `size()` equals the sum of the encoded lengths of the calls, and the first
`size()` bytes of the buffer are the concatenation of the encodings in call order. -/
theorem append_sequence_size_and_content (cs : List Call) (ha : ∀ c ∈ cs, c.ArgsOk)
    (hf : Fits 64 0 (cs.flatMap Call.lens)) :
    ∃ d, run Datagram.default cs = some d ∧
      d.size = (cs.map fun c => c.encoding.length).sum ∧
      d.get_data.take d.size = (cs.map Call.encoding).flatten := by
  have hv : Datagram.default.Valid := by decide
  obtain ⟨d, e, _, n, b⟩ := run_spec (d := Datagram.default) cs hv ha hf
  refine ⟨d, e, ?_, ?_⟩
  · simp only [size, n, List.length_flatten, List.map_map]
    simp [Datagram.default, Function.comp_def]
  · have hb : Datagram.default.bytes = [] := by decide
    simpa [bytes, hb] using b

/-- C1, witness: a string, a channel and a location appended to an empty Datagram. -/
theorem append_sequence_size_and_content_witness :
    ∃ d, run Datagram.default [.add_string [104, 105], .add_channel 42, .add_location 5 7]
        = some d ∧
      d.size = ([Call.add_string [104, 105], .add_channel 42, .add_location 5 7].map
        fun c => c.encoding.length).sum ∧
      d.get_data.take d.size
        = ([Call.add_string [104, 105], .add_channel 42, .add_location 5 7].map
            Call.encoding).flatten :=
  append_sequence_size_and_content _ (by decide) (by decide)

/-- C1, counterexample: two `add_data` calls of 32768 bytes each on an empty Datagram stay
inside the allocated array, yet `size()` is 0 afterwards while the encoded lengths sum to
65536. -/
theorem append_sequence_size_counterexample :
    ∃ d, run Datagram.default
        [.add_data (zeros 32768), .add_data (zeros 32768)] = some d ∧
      d.size = 0 ∧
      ([Call.add_data (zeros 32768), .add_data (zeros 32768)].map
        fun c => c.encoding.length).sum = 65536 := by
  have hv : Datagram.default.Valid := by decide
  obtain ⟨d1, e1, v1, c1, n1, -⟩ := @appendChunk_spec Datagram.default (zeros 32768) hv
    (by rw [zeros_length]; decide)
  rw [zeros_length] at c1 n1
  have hc1 : d1.buf_cap = 32896 := c1
  have hn1 : d1.buf_end = 32768 := n1
  obtain ⟨d2, e2, n2, -⟩ := @appendChunk_grow d1 (zeros 32768)
    v1.1 v1.2.1 (by rw [zeros_length]; decide) (by rw [zeros_length, hc1, hn1]; decide)
  rw [zeros_length, hn1] at n2
  refine ⟨d2, ?_, ?_, by simp [Call.encoding, zeros_length]⟩
  · have h0 : (zeros 32768).length ≠ 0 := by rw [zeros_length]; decide
    simp only [run, Call.apply, add_data, h0, ne_eq, not_false_eq_true, if_true]
    change (Datagram.default.appendChunk _).bind _ = _
    rw [e1, Option.some_bind]
    change (d1.appendChunk _).bind _ = _
    rw [e2]; rfl
  · rw [size, n2]; decide

/-- The receiver as its own nested argument, which the statements on nested Datagrams
leave out: `d.add_blob(d)` on a Datagram that holds the one byte 7 writes the tag 1 and
then the three bytes 7, 1, 0, because `dg.buf_end` is read again after `add_size` has
advanced it; with another object holding the same byte as argument the bytes are
7, 1, 0, 7. `d.add_datagram(d)` appends the receiver's bytes once, as it does for another
object. -/
theorem add_blob_self_reads_advanced_length :
    ((Datagram.default.add_uint8 7).bind Datagram.add_blob_self).map Datagram.bytes
      = some [7, 1, 0, 7, 1, 0] ∧
    ((Datagram.default.add_uint8 7).bind fun d => d.add_blob_datagram d).map Datagram.bytes
      = some [7, 1, 0, 7] ∧
    ((Datagram.default.add_uint8 7).bind Datagram.add_datagram_self).map Datagram.bytes
      = some [7, 7] ∧
    ((Datagram.default.add_uint8 7).bind fun d => d.add_datagram d).map Datagram.bytes
      = some [7, 7] := by
  decide

/-! ## C2 -/

namespace Datagram

theorem add_buffer_spec {d : Datagram} {n : Nat} (hv : d.Valid)
    (hf : grow d.buf_cap d.buf_end n ≤ 65535) :
    ∃ d', d.add_buffer n = some (d.buf_end, d') ∧ d'.Valid ∧
      d'.buf_cap = grow d.buf_cap d.buf_end n ∧ d'.buf_end = d.buf_end + n ∧
      d'.buf.take d.buf_end = d.buf.take d.buf_end := by
  obtain ⟨hec, hcl, hc⟩ := hv
  have hn : n ≤ 65535 := by
    unfold grow at hf; split at hf <;> omega
  by_cases h : d.buf_end + n ≤ d.buf_cap
  · have hg : grow d.buf_cap d.buf_end n = d.buf_cap := by simp [grow]; omega
    refine ⟨{ buf := d.buf, buf_cap := d.buf_cap, buf_end := d.buf_end + n }, ?_, ?_, ?_,
      rfl, rfl⟩
    · simp only [add_buffer, dgsize_t_of_le hn, check_add_length_fit hn h, Option.some_bind,
        dgsize_t_of_le (show d.buf_end + n ≤ 65535 by omega)]
    · exact ⟨h, hcl, hc⟩
    · exact hg.symm
  · have hg : grow d.buf_cap d.buf_end n = d.buf_cap + n + 64 := by simp [grow]; omega
    rw [hg] at hf
    refine ⟨{ buf := d.buf.take d.buf_cap ++ newArray (n + 64),
              buf_cap := d.buf_cap + n + 64, buf_end := d.buf_end + n }, ?_, ?_, ?_, rfl, ?_⟩
    · simp only [add_buffer, dgsize_t_of_le hn,
        check_add_length_grow hn hcl (show d.buf_cap < d.buf_end + n by omega),
        Option.some_bind, dgsize_t_of_le hf,
        dgsize_t_of_le (show d.buf_end + n ≤ 65535 by omega)]
    · simp [Valid, List.length_take, Nat.min_eq_left hcl]
      omega
    · exact hg.symm
    · rw [List.take_append_of_le_length (by simp [List.length_take, Nat.min_eq_left hcl]; omega),
        List.take_take, Nat.min_eq_left hec]

end Datagram

theorem op_apply_spec {d : Datagram} (o : Op) (hv : d.Valid) (ha : o.ArgsOk)
    (hf : Fits d.buf_cap d.buf_end o.lens) :
    ∃ d', o.apply d = some d' ∧ d'.Valid ∧ d'.buf_cap = growAll d.buf_cap d.buf_end o.lens ∧
      d'.buf_end = d.buf_end + o.lens.sum ∧ d'.buf.take d.buf_end = d.buf.take d.buf_end := by
  cases o with
  | call c =>
    obtain ⟨d1, e1, v1, c1, n1, b1⟩ := apply_spec c hv ha hf
    refine ⟨d1, e1, v1, c1, ?_, ?_⟩
    · rw [n1]; exact congrArg _ (lens_sum c ha).symm
    · have := congrArg (List.take d.buf_end) b1
      have hl : d.bytes.length = d.buf_end := bytes_length d (le_trans hv.1 hv.2.1)
      rw [List.take_append_of_le_length (by omega)] at this
      simpa [bytes, size, get_data, List.take_take, n1] using this
  | add_buffer n =>
    obtain ⟨d1, e1, v1, c1, n1, b1⟩ := add_buffer_spec (n := n) hv hf.1
    exact ⟨d1, by simp [Op.apply, e1], v1, by simp [Op.lens, growAll, c1],
      by simp [Op.lens, n1], b1⟩

theorem runOps_spec {d : Datagram} (os : List Op) (hv : d.Valid) (ha : ∀ o ∈ os, o.ArgsOk)
    (hf : Fits d.buf_cap d.buf_end (os.flatMap Op.lens)) :
    ∃ d', runOps d os = some d' ∧ d'.Valid ∧
      d'.buf_end = d.buf_end + (os.flatMap Op.lens).sum ∧
      d'.buf.take d.buf_end = d.buf.take d.buf_end := by
  induction os generalizing d with
  | nil => exact ⟨d, rfl, hv, by simp, rfl⟩
  | cons o os ih =>
    have ho : o.ArgsOk := ha o (List.mem_cons_self _ _)
    rw [List.flatMap_cons, Fits_append] at hf
    obtain ⟨d1, e1, v1, c1, n1, b1⟩ := op_apply_spec o hv ho hf.1
    have hf2 := hf.2
    rw [← c1, ← n1] at hf2
    obtain ⟨d2, e2, v2, n2, b2⟩ := ih v1 (fun x hx => ha x (List.mem_cons_of_mem _ hx)) hf2
    refine ⟨d2, by simp [runOps, e1, e2], v2, ?_, ?_⟩
    · simp [n2, n1, Nat.add_assoc]
    · have := congrArg (List.take d.buf_end) b2
      rw [List.take_take, List.take_take, Nat.min_eq_left (by omega)] at this
      rw [this, b1]

theorem memcpy_new {src : List Nat} {n : Nat} (h : n ≤ src.length) :
    memcpy (newArray n) 0 src n = some (src.take n) := by
  rw [memcpy_eq_some (by simp [newArray]) h]
  simp [newArray]

theorem ctor_spec (c : Ctor) (h : c.Ok) : ∃ d, c.build = some d ∧ d.Valid := by
  cases c with
  | default => exact ⟨_, rfl, by decide⟩
  | copy dg =>
    refine ⟨{ buf := dg.buf.take dg.buf_end, buf_cap := dgsize_t dg.buf_end,
              buf_end := dgsize_t dg.buf_end },
      by simp only [Ctor.build, Datagram.copy, size, memcpy_new h.1, Option.some_bind], ?_⟩
    simp [Valid, dgsize_t_of_le h.2, List.length_take, Nat.min_eq_left h.1, h.2]
  | ofVector data =>
    have h : data.length ≤ 65535 := h
    refine ⟨{ buf := data.take data.length, buf_cap := dgsize_t data.length,
              buf_end := dgsize_t data.length },
      by simp only [Ctor.build, Datagram.ofVector, memcpy_new (le_refl _), Option.some_bind], ?_⟩
    simp [Valid, dgsize_t_of_le h, h]
  | ofString data =>
    have h : data.length ≤ 65535 := h
    refine ⟨{ buf := data.take data.length, buf_cap := dgsize_t data.length,
              buf_end := dgsize_t data.length },
      by simp only [Ctor.build, Datagram.ofString, memcpy_new (le_refl _), Option.some_bind], ?_⟩
    simp [Valid, dgsize_t_of_le h, h]
  | ofRaw data length =>
    obtain ⟨h1, h2⟩ := h
    refine ⟨{ buf := data.take length, buf_cap := length, buf_end := length },
      by simp only [Ctor.build, Datagram.ofRaw, dgsize_t_of_le h2, memcpy_new h1,
        Option.some_bind], ?_⟩
    simp [Valid, List.length_take, Nat.min_eq_left h1, h2]
  | ofServerHeader to_channel from_channel message_type =>
    obtain ⟨d, e, v, -⟩ := apply_spec (d := Datagram.default)
      (.add_server_header to_channel from_channel message_type) (by decide) trivial
      (show Fits 64 0 [1, 8, 8, 2] by decide)
    exact ⟨d, e, v⟩
  | ofServerHeaderSet to_channels from_channel message_type =>
    obtain ⟨d, e, v, -⟩ := apply_spec (d := Datagram.default)
      (.add_server_header_set to_channels from_channel message_type) (by decide) trivial h
    exact ⟨d, e, v⟩
  | ofControlHeader message_type =>
    obtain ⟨d, e, v, -⟩ := apply_spec (d := Datagram.default)
      (.add_control_header message_type) (by decide) trivial
      (show Fits 64 0 [1, 8, 2] by decide)
    exact ⟨d, e, v⟩

/-- C4, as amended: the default constructor yields capacity 64 and length 0, and for
every source of at most 65535 bytes (another Datagram whose written bytes lie inside its
array, a byte vector, a string, or a raw pointer readable for `length` bytes) the
constructed Datagram has capacity = length = the length of the source and its bytes are
the bytes of the source. -/
theorem constructor_capacity_and_content :
    (Datagram.default.buf_cap = 64 ∧ Datagram.default.size = 0) ∧
    (∀ dg : Datagram, dg.buf_end ≤ dg.buf.length → dg.buf_end ≤ 65535 →
      ∃ d, Datagram.copy dg = some d ∧ d.buf_cap = dg.size ∧ d.size = dg.size ∧
        d.get_data = dg.bytes) ∧
    (∀ data : List Nat, data.length ≤ 65535 →
      ∃ d, Datagram.ofVector data = some d ∧ d.buf_cap = data.length ∧
        d.size = data.length ∧ d.get_data = data) ∧
    (∀ data : List Nat, data.length ≤ 65535 →
      ∃ d, Datagram.ofString data = some d ∧ d.buf_cap = data.length ∧
        d.size = data.length ∧ d.get_data = data) ∧
    (∀ (data : List Nat) (length : Nat), length ≤ data.length → length ≤ 65535 →
      ∃ d, Datagram.ofRaw data length = some d ∧ d.buf_cap = length ∧ d.size = length ∧
        d.get_data = data.take length) := by
  refine ⟨⟨rfl, rfl⟩, fun dg h1 h2 => ?_, fun data h => ?_, fun data h => ?_,
    fun data length h1 h2 => ?_⟩
  · exact ⟨{ buf := dg.buf.take dg.buf_end, buf_cap := dgsize_t dg.buf_end,
             buf_end := dgsize_t dg.buf_end },
      by simp only [Datagram.copy, size, memcpy_new h1, Option.some_bind],
      dgsize_t_of_le h2, dgsize_t_of_le h2, rfl⟩
  · exact ⟨{ buf := data.take data.length, buf_cap := dgsize_t data.length,
             buf_end := dgsize_t data.length },
      by simp only [Datagram.ofVector, memcpy_new (le_refl _), Option.some_bind],
      dgsize_t_of_le h, dgsize_t_of_le h, List.take_length data⟩
  · exact ⟨{ buf := data.take data.length, buf_cap := dgsize_t data.length,
             buf_end := dgsize_t data.length },
      by simp only [Datagram.ofString, memcpy_new (le_refl _), Option.some_bind],
      dgsize_t_of_le h, dgsize_t_of_le h, List.take_length data⟩
  · exact ⟨{ buf := data.take length, buf_cap := length, buf_end := length },
      by simp only [Datagram.ofRaw, dgsize_t_of_le h2, memcpy_new h1, Option.some_bind],
      rfl, rfl, rfl⟩

/-- C4, witness: a Datagram constructed from the three-byte vector `1, 2, 3`. -/
theorem constructor_capacity_and_content_witness :
    ∃ d, Datagram.ofVector [1, 2, 3] = some d ∧ d.buf_cap = [1, 2, 3].length ∧
      d.size = [1, 2, 3].length ∧ d.get_data = [1, 2, 3] :=
  constructor_capacity_and_content.2.2.1 [1, 2, 3] (by decide)

/-- C4, counterexample: a Datagram constructed from a vector of 65536 bytes allocates and
copies 65536 bytes but records capacity 0 and length 0. -/
theorem constructor_capacity_counterexample :
    ∃ d, Datagram.ofVector (zeros 65536) = some d ∧ d.buf_cap = 0 ∧ d.buf_end = 0 ∧
      (zeros 65536).length = 65536 := by
  have hz : dgsize_t (zeros 65536).length = 0 := by rw [zeros_length]; decide
  exact ⟨{ buf := (zeros 65536).take (zeros 65536).length,
           buf_cap := dgsize_t (zeros 65536).length,
           buf_end := dgsize_t (zeros 65536).length },
    by simp only [Datagram.ofVector, memcpy_new (le_refl _), Option.some_bind],
    hz, hz, zeros_length _⟩

/-! ## C5 -/

/-- C5, as amended: for every Datagram (whose recorded capacity lies inside its array) and
every requested length `len`, `check_add_length` sets the capacity to
`old_capacity + len + 64` when the append overflows (`buf_end + len > buf_cap`) and that
sum is at most 65535, and returns the Datagram unchanged, capacity included, when the
append fits (`buf_end + len ≤ buf_cap`, the exact fit included). -/
theorem check_add_length_capacity (d : Datagram) (len : Nat) (hl : len ≤ 65535)
    (hc : d.buf_cap ≤ d.buf.length) :
    (d.buf_end + len > d.buf_cap → d.buf_cap + len + 64 ≤ 65535 →
      ∃ d', d.check_add_length len = some d' ∧ d'.buf_cap = d.buf_cap + len + 64) ∧
    (d.buf_end + len ≤ d.buf_cap → d.check_add_length len = some d) := by
  refine ⟨fun h1 h2 => ?_, fun h => check_add_length_fit hl h⟩
  exact ⟨_, check_add_length_grow hl hc h1, dgsize_t_of_le h2⟩

/-- C5, witness: growing an empty Datagram for 100 bytes gives capacity 228, and an exact
fit of 64 bytes leaves it unchanged. -/
theorem check_add_length_capacity_witness :
    (∃ d', Datagram.default.check_add_length 100 = some d' ∧ d'.buf_cap = 64 + 100 + 64) ∧
    Datagram.default.check_add_length 64 = some Datagram.default :=
  ⟨(check_add_length_capacity Datagram.default 100 (by decide) (by decide)).1 (by decide)
      (by decide),
    (check_add_length_capacity Datagram.default 64 (by decide) (by decide)).2 (by decide)⟩

/-- C5, counterexample: `check_add_length(65500)` on an empty Datagram overflows and
stores `(64 + 65500 + 64) mod 65536 = 92` as the capacity, not 65628. -/
theorem check_add_length_capacity_counterexample :
    ∃ d', Datagram.default.check_add_length 65500 = some d' ∧
      Datagram.default.buf_end + 65500 > Datagram.default.buf_cap ∧
      d'.buf_cap = 92 ∧ Datagram.default.buf_cap + 65500 + 64 = 65628 :=
  ⟨_, @check_add_length_grow Datagram.default 65500 (by decide) (by decide) (by decide),
    by decide, by decide, by decide⟩

/-! ## C6 -/

theorem sort_3_7_9 : Finset.sort (· ≤ ·) ({3, 7, 9} : Finset Nat) = [3, 7, 9] := by
  have h : ({3, 7, 9} : Finset Nat) = [3, 7, 9].toFinset := by decide
  rw [h, List.toFinset_sort] <;> decide

theorem header_set_fits (to_channels : Finset Nat) (h : to_channels.card ≤ 4000) :
    Fits 64 0 (1 :: List.replicate to_channels.card 8 ++ [8, 2]) := by
  apply Fits_of_total _ _ _ (by decide)
  simp only [List.cons_append, List.sum_cons, List.sum_append, List.sum_replicate, smul_eq_mul,
    List.sum_nil]
  omega

namespace Datagram

theorem add_server_header_eq (d : Datagram) (to_channel sender message_type : Nat) :
    d.add_server_header to_channel sender message_type
      = d.appendChunks [[1], leBytes 8 to_channel, leBytes 8 sender, leBytes 2 message_type] := by
  simp only [add_server_header, appendChunks, add_uint8_eq, add_channel_eq, add_uint16_eq,
    leBytes]
  congr 1; funext d1; congr 1; funext d2; congr 1; funext d3
  cases d3.appendChunk _ <;> rfl

theorem add_control_header_eq (d : Datagram) (message_type : Nat) :
    d.add_control_header message_type
      = d.appendChunks [[1], leBytes 8 1, leBytes 2 message_type] := by
  simp only [add_control_header, appendChunks, add_uint8_eq, add_channel_eq, add_uint16_eq,
    leBytes, CONTROL_MESSAGE]
  congr 1; funext d1; congr 1; funext d2
  cases d2.appendChunk _ <;> rfl

/-- One byte appended to a Datagram that holds 65535 bytes in an array of 65535: the array
grows to 65600 bytes, the stored capacity is 65600 - 65536 = 64 and the stored length is
65536 - 65536 = 0. -/
theorem appendChunk_at_65535 (d : Datagram) (hE : d.buf_end = 65535) (hC : d.buf_cap = 65535)
    (hL : d.buf.length = 65535) (src : List Nat) (hs : src.length = 1) :
    ∃ d', d.appendChunk src = some d' ∧ d'.buf_end = 0 ∧ d'.buf_cap = 64 ∧
      d'.buf.length = 65600 := by
  obtain ⟨d1, e1, n1, c1, l1, -⟩ := @appendChunk_grow d src (by omega) (by omega) (by omega)
    (by omega)
  rw [hE, hs] at n1
  rw [hC, hs] at c1 l1
  exact ⟨d1, e1, n1.trans (by decide), c1.trans (by decide), l1⟩

/-- A count byte and further chunks appended to a Datagram that holds 65535 bytes: the
count byte wraps the length to 0, and the chunks are then written from offset 0 on. -/
theorem appendChunks_at_65535 (d : Datagram) (hE : d.buf_end = 65535) (hC : d.buf_cap = 65535)
    (hL : d.buf.length = 65535) (cs : List (List Nat)) (hf : Fits 64 0 (cs.map List.length)) :
    ∃ d', d.appendChunks ([1] :: cs) = some d' ∧ d'.size = cs.flatten.length ∧
      d'.bytes = cs.flatten := by
  obtain ⟨d1, e1, n1, c1, l1⟩ := appendChunk_at_65535 d hE hC hL [1] rfl
  have v1 : d1.Valid := ⟨by omega, by omega, by omega⟩
  obtain ⟨d2, e2, -, -, n2, b2⟩ := @appendChunks_spec d1 cs v1 (by rw [c1, n1]; exact hf)
  refine ⟨d2, by simp only [appendChunks, e1, Option.some_bind, e2], ?_, ?_⟩
  · rw [size, n2, n1, Nat.zero_add]
  · rw [b2]
    simp [bytes, size, get_data, n1]

end Datagram

/-- C7, as amended: for every recipient channel `to`, sender channel `from` and message
type `t`, `add_server_header(to, from, t)` on a Datagram with `buf_end ≤ buf_cap ≤`
allocated size whose capacity computations stay at or below 65535 returns and appends
exactly 19 bytes: the count byte 1, the 8-byte encoding of `to`, the 8-byte encoding of
`from` and the 2-byte encoding of `t`, in that order; so `Datagram(to, from, t)`, which
runs it on an empty Datagram of capacity 64, has size 19 and exactly these bytes. -/
theorem server_header_encoding (to_channel from_channel message_type : Nat) :
    (∀ d : Datagram, d.Valid → Fits d.buf_cap d.buf_end [1, 8, 8, 2] →
      ∃ d', d.add_server_header to_channel from_channel message_type = some d' ∧
        d'.size = d.size + 19 ∧
        d'.bytes = d.bytes ++ ([1] ++ leBytes CHANNEL_SIZE_BYTES to_channel
          ++ leBytes CHANNEL_SIZE_BYTES from_channel ++ leBytes 2 message_type)) ∧
    (∃ d, Datagram.ofServerHeader to_channel from_channel message_type = some d ∧
      Datagram.default.add_server_header to_channel from_channel message_type = some d ∧
      d.size = 19 ∧
      d.bytes = [1] ++ leBytes CHANNEL_SIZE_BYTES to_channel
        ++ leBytes CHANNEL_SIZE_BYTES from_channel ++ leBytes 2 message_type) ∧
    (leBytes CHANNEL_SIZE_BYTES to_channel).length = 8 ∧
    (leBytes CHANNEL_SIZE_BYTES from_channel).length = 8 ∧
    (leBytes 2 message_type).length = 2 := by
  have key : ∀ d : Datagram, d.Valid → Fits d.buf_cap d.buf_end [1, 8, 8, 2] →
      ∃ d', d.add_server_header to_channel from_channel message_type = some d' ∧
        d'.size = d.size + 19 ∧
        d'.bytes = d.bytes ++ ([1] ++ leBytes CHANNEL_SIZE_BYTES to_channel
          ++ leBytes CHANNEL_SIZE_BYTES from_channel ++ leBytes 2 message_type) := by
    intro d hv hf
    obtain ⟨d1, e1, -, -, n1, b1⟩ := @apply_spec d
      (.add_server_header to_channel from_channel message_type) hv trivial hf
    refine ⟨d1, e1, ?_, b1⟩
    simp only [size, n1, Call.encoding, List.length_append, leBytes_length]
    rfl
  refine ⟨key, ?_, leBytes_length _ _, leBytes_length _ _, leBytes_length _ _⟩
  obtain ⟨d, e, n, b⟩ := key Datagram.default (by decide) (by decide)
  have hb : Datagram.default.bytes = [] := by decide
  exact ⟨d, e, e, n, by rw [b, hb]; rfl⟩

/-- C7, witness: the header for recipient 3, sender 42 and type 10 appended to a Datagram
that holds the three bytes 9, 9, 9. -/
theorem server_header_encoding_witness :
    ∃ d', Datagram.add_server_header { buf := [9, 9, 9], buf_cap := 3, buf_end := 3 } 3 42 10
        = some d' ∧
      d'.size = Datagram.size { buf := [9, 9, 9], buf_cap := 3, buf_end := 3 } + 19 ∧
      d'.bytes = Datagram.bytes { buf := [9, 9, 9], buf_cap := 3, buf_end := 3 }
        ++ ([1] ++ leBytes CHANNEL_SIZE_BYTES 3 ++ leBytes CHANNEL_SIZE_BYTES 42
          ++ leBytes 2 10) :=
  (server_header_encoding 3 42 10).1 { buf := [9, 9, 9], buf_cap := 3, buf_end := 3 }
    (by decide) (by decide)

/-- C7, counterexample: `add_server_header(3, 42, 10)` on a Datagram that holds 65535
bytes. The count byte is copied to offset 65535 of the reallocated array and wraps
`buf_end` to 0, the stored capacity is 64, and the two channels and the type are then
written from offset 0 on: the call returns with `size()` 18, not 65535 + 19, and the 18
bytes a reader sees are those of 3, 42 and 10, without the count byte and without the
earlier content. -/
theorem server_header_wrap_counterexample :
    ∃ d d', Datagram.ofRaw (zeros 65535) 65535 = some d ∧ d.size = 65535 ∧
      d.add_server_header 3 42 10 = some d' ∧ d'.size = 18 ∧
      d'.bytes = leBytes 8 3 ++ leBytes 8 42 ++ leBytes 2 10 := by
  have hl : ((zeros 65535).take 65535).length = 65535 := by
    rw [List.length_take, zeros_length]; decide
  have e0 : Datagram.ofRaw (zeros 65535) 65535
      = some { buf := (zeros 65535).take 65535, buf_cap := 65535, buf_end := 65535 } := by
    have h2 : dgsize_t 65535 = 65535 := by decide
    simp only [Datagram.ofRaw, h2, memcpy_new (show 65535 ≤ (zeros 65535).length by
      rw [zeros_length]), Option.some_bind]
  obtain ⟨d', e, n, b⟩ := appendChunks_at_65535
    { buf := (zeros 65535).take 65535, buf_cap := 65535, buf_end := 65535 } rfl rfl
    (by show ((zeros 65535).take 65535).length = 65535; exact hl)
    [leBytes 8 3, leBytes 8 42, leBytes 2 10] (by decide)
  refine ⟨_, d', e0, rfl, ?_, n.trans (by decide), b.trans (by decide)⟩
  rw [add_server_header_eq]; exact e

/-! ## C8 -/

/-- C8, as amended: for every message type `t`, `add_control_header(t)` on a Datagram with
`buf_end ≤ buf_cap ≤` allocated size whose capacity computations stay at or below 65535
returns and appends exactly 11 bytes: the count byte 1, the 8-byte encoding of the fixed
channel `CONTROL_MESSAGE` (= 1) and the 2-byte encoding of `t`, in that order, with no
sender channel; so `Datagram(t)`, which runs it on an empty Datagram of capacity 64, has
size 11 and exactly these bytes. -/
theorem control_header_encoding (message_type : Nat) :
    (∀ d : Datagram, d.Valid → Fits d.buf_cap d.buf_end [1, 8, 2] →
      ∃ d', d.add_control_header message_type = some d' ∧
        d'.size = d.size + 11 ∧
        d'.bytes = d.bytes ++ ([1] ++ leBytes CHANNEL_SIZE_BYTES CONTROL_MESSAGE
          ++ leBytes 2 message_type)) ∧
    (∃ d, Datagram.ofControlHeader message_type = some d ∧
      Datagram.default.add_control_header message_type = some d ∧
      d.size = 11 ∧
      d.bytes = [1] ++ leBytes CHANNEL_SIZE_BYTES CONTROL_MESSAGE ++ leBytes 2 message_type) ∧
    leBytes CHANNEL_SIZE_BYTES CONTROL_MESSAGE = [1, 0, 0, 0, 0, 0, 0, 0] ∧
    (leBytes 2 message_type).length = 2 := by
  have key : ∀ d : Datagram, d.Valid → Fits d.buf_cap d.buf_end [1, 8, 2] →
      ∃ d', d.add_control_header message_type = some d' ∧
        d'.size = d.size + 11 ∧
        d'.bytes = d.bytes ++ ([1] ++ leBytes CHANNEL_SIZE_BYTES CONTROL_MESSAGE
          ++ leBytes 2 message_type) := by
    intro d hv hf
    obtain ⟨d1, e1, -, -, n1, b1⟩ := @apply_spec d
      (.add_control_header message_type) hv trivial hf
    refine ⟨d1, e1, ?_, b1⟩
    simp only [size, n1, Call.encoding, List.length_append, leBytes_length]
    rfl
  refine ⟨key, ?_, by decide, leBytes_length _ _⟩
  obtain ⟨d, e, n, b⟩ := key Datagram.default (by decide) (by decide)
  have hb : Datagram.default.bytes = [] := by decide
  exact ⟨d, e, e, n, by rw [b, hb]; rfl⟩

/-- C8, witness: the control header of type 10 appended to a Datagram that holds the
three bytes 9, 9, 9. -/
theorem control_header_encoding_witness :
    ∃ d', Datagram.add_control_header { buf := [9, 9, 9], buf_cap := 3, buf_end := 3 } 10
        = some d' ∧
      d'.size = Datagram.size { buf := [9, 9, 9], buf_cap := 3, buf_end := 3 } + 11 ∧
      d'.bytes = Datagram.bytes { buf := [9, 9, 9], buf_cap := 3, buf_end := 3 }
        ++ ([1] ++ leBytes CHANNEL_SIZE_BYTES CONTROL_MESSAGE ++ leBytes 2 10) :=
  (control_header_encoding 10).1 { buf := [9, 9, 9], buf_cap := 3, buf_end := 3 }
    (by decide) (by decide)

/-- C8, counterexample: `add_control_header(10)` on a Datagram that holds 65535 bytes. The
count byte is copied to offset 65535 of the reallocated array and wraps `buf_end` to 0,
and the channel and the type are then written from offset 0 on: the call returns with
`size()` 10, not 65535 + 11, and the 10 bytes a reader sees are those of `CONTROL_MESSAGE`
and 10, without the count byte and without the earlier content. -/
theorem control_header_wrap_counterexample :
    ∃ d d', Datagram.ofRaw (zeros 65535) 65535 = some d ∧ d.size = 65535 ∧
      d.add_control_header 10 = some d' ∧ d'.size = 10 ∧
      d'.bytes = leBytes 8 CONTROL_MESSAGE ++ leBytes 2 10 := by
  have hl : ((zeros 65535).take 65535).length = 65535 := by
    rw [List.length_take, zeros_length]; decide
  have e0 : Datagram.ofRaw (zeros 65535) 65535
      = some { buf := (zeros 65535).take 65535, buf_cap := 65535, buf_end := 65535 } := by
    have h2 : dgsize_t 65535 = 65535 := by decide
    simp only [Datagram.ofRaw, h2, memcpy_new (show 65535 ≤ (zeros 65535).length by
      rw [zeros_length]), Option.some_bind]
  obtain ⟨d', e, n, b⟩ := appendChunks_at_65535
    { buf := (zeros 65535).take 65535, buf_cap := 65535, buf_end := 65535 } rfl rfl
    (by show ((zeros 65535).take 65535).length = 65535; exact hl)
    [leBytes 8 1, leBytes 2 10] (by decide)
  refine ⟨_, d', e0, rfl, ?_, n.trans (by decide), b.trans (by decide)⟩
  rw [add_control_header_eq]; exact e

/-! ## C9 -/

theorem leValue_leBytes_two (n : Nat) (h : n ≤ 65535) : leValue (leBytes 2 n) = n := by
  simp only [leValue, leBytes]
  omega

namespace Datagram

theorem put_buf_end_lt {d d' : Datagram} {src : List Nat} {n : Nat}
    (h : d.put src n = some d') : d'.buf_end < 65536 := by
  unfold put at h
  obtain ⟨b, -, hb⟩ := Option.bind_eq_some.mp h
  have := Option.some.inj hb
  subst this
  exact Nat.mod_lt _ (by decide)

theorem Fits_two_length_le {cap e n : Nat} (hc : cap ≤ 65535) (hf : Fits cap e [2, n]) :
    n ≤ 65535 := by
  obtain ⟨h1, h2, -⟩ := hf
  simp only [grow] at h1 h2
  split at h2 <;> split at h2 <;> split at h1 <;> omega

end Datagram

/-- C10, as amended: for every Datagram `d` and nested Datagram `n` (an object other than
`d`), `add_blob(n)` does exactly what `add_size(n.size())` followed by `add_datagram(n)`
does; and when `d` has `buf_end ≤ buf_cap`, the written bytes of `n` lie inside its array
and the capacity computations stay at or below 65535, `add_datagram(n)` appends exactly
the `n.size()` written bytes of `n` with no length tag and `add_blob(n)` appends the
2-byte tag `n.size()` followed by those same bytes. -/
theorem nested_datagram_encoding (d n : Datagram) :
    d.add_blob_datagram n = (d.add_size n.size).bind (fun d1 => d1.add_datagram n) ∧
    (d.Valid → n.buf_end ≤ n.buf.length → Fits d.buf_cap d.buf_end [n.buf_end] →
      ∃ d', d.add_datagram n = some d' ∧ d'.bytes = d.bytes ++ n.bytes ∧
        d'.size = d.size + n.size) ∧
    (d.Valid → n.buf_end ≤ n.buf.length → Fits d.buf_cap d.buf_end [2, n.buf_end] →
      ∃ d', d.add_blob_datagram n = some d' ∧
        d'.bytes = d.bytes ++ leBytes 2 n.size ++ n.bytes ∧
        d'.size = d.size + 2 + n.size ∧ leValue (leBytes 2 n.size) = n.size) := by
  refine ⟨rfl, fun hv hn hf => ?_, fun hv hn hf => ?_⟩
  · obtain ⟨d1, e1, -, -, n1, b1⟩ := apply_spec (.add_datagram n) hv hn hf
    refine ⟨d1, e1, b1, ?_⟩
    simp only [size, n1, Call.encoding, bytes_length n hn]
  · obtain ⟨d1, e1, -, -, n1, b1⟩ := apply_spec (.add_blob_datagram n) hv hn hf
    refine ⟨d1, e1, by rw [b1, Call.encoding, List.append_assoc], ?_,
      leValue_leBytes_two _ (Fits_two_length_le hv.2.2 hf)⟩
    simp only [size, n1, Call.encoding, List.length_append, leBytes_length, bytes_length n hn]
    omega

/-- C10, witness: the three-byte Datagram `1, 2, 3` nested into an empty Datagram, verbatim
and as a blob. -/
theorem nested_datagram_encoding_witness :
    (∃ d', Datagram.default.add_datagram { buf := [1, 2, 3], buf_cap := 3, buf_end := 3 }
        = some d' ∧ d'.bytes = [1, 2, 3] ∧ d'.size = 3) ∧
    (∃ d', Datagram.default.add_blob_datagram { buf := [1, 2, 3], buf_cap := 3, buf_end := 3 }
        = some d' ∧ d'.bytes = [3, 0, 1, 2, 3] ∧ d'.size = 5) := by
  have h := nested_datagram_encoding Datagram.default
    { buf := [1, 2, 3], buf_cap := 3, buf_end := 3 }
  obtain ⟨d1, e1, b1, s1⟩ := h.2.1 (by decide) (by decide) (by decide)
  obtain ⟨d2, e2, b2, s2, -⟩ := h.2.2 (by decide) (by decide) (by decide)
  exact ⟨⟨d1, e1, b1, s1⟩, ⟨d2, e2, b2, s2⟩⟩

/-- C10, counterexample: `add_datagram` of a one-byte Datagram on a Datagram that already
holds 65535 bytes copies the byte inside the reallocated array, yet `size()` is 0
afterwards instead of 65536. -/
theorem nested_datagram_size_counterexample :
    ∃ d n d', Datagram.ofRaw (zeros 65535) 65535 = some d ∧ Datagram.ofRaw [7] 1 = some n ∧
      d.add_datagram n = some d' ∧ d.buf_end = 65535 ∧ n.buf_end = 1 ∧ d'.buf_end = 0 := by
  have hl : ((zeros 65535).take 65535).length = 65535 := by
    rw [List.length_take, zeros_length]; decide
  have e0 : Datagram.ofRaw (zeros 65535) 65535
      = some { buf := (zeros 65535).take 65535, buf_cap := 65535, buf_end := 65535 } := by
    have h2 : dgsize_t 65535 = 65535 := by decide
    simp only [Datagram.ofRaw, h2, memcpy_new (show 65535 ≤ (zeros 65535).length by
      rw [zeros_length]), Option.some_bind]
  have en : Datagram.ofRaw [7] 1 = some { buf := [7], buf_cap := 1, buf_end := 1 } := by
    decide
  have hb : (Datagram.bytes { buf := [7], buf_cap := 1, buf_end := 1 }).length = 1 := by
    decide
  obtain ⟨d', e, n', -⟩ := @appendChunk_grow
    { buf := (zeros 65535).take 65535, buf_cap := 65535, buf_end := 65535 }
    (Datagram.bytes { buf := [7], buf_cap := 1, buf_end := 1 })
    (Nat.le_refl _) (by show 65535 ≤ _; rw [hl]) (by rw [hb]; decide)
    (by rw [hb]; decide)
  refine ⟨_, _, d', e0, en, ?_, rfl, rfl, ?_⟩
  · rw [add_datagram_eq _ _ (by decide)]; exact e
  · rw [n', hb]; decide

/-! ## C11 -/

/-- C11, as amended: for every Datagram with `buf_end ≤ buf_cap ≤` allocated size and
every `N` with `size() + N ≤ 65535`, `add_buffer(N)` returns, increases `size()` by
exactly `N` at once (nothing has to be written into the span), returns a handle at the
offset of the old `size()` whose `N` bytes lie inside the array, and leaves the previously
written bytes unchanged. -/
theorem add_buffer_reserves (d : Datagram) (n : Nat) (hec : d.buf_end ≤ d.buf_cap)
    (hcl : d.buf_cap ≤ d.buf.length) (hn : d.size + n ≤ 65535) :
    ∃ d', d.add_buffer n = some (d.size, d') ∧ d'.size = d.size + n ∧
      d.size + n ≤ d'.get_data.length ∧
      d'.get_data.take d.size = d.get_data.take d.size := by
  simp only [size, get_data] at *
  have hn1 : n ≤ 65535 := by omega
  by_cases h : d.buf_end + n ≤ d.buf_cap
  · refine ⟨{ buf := d.buf, buf_cap := d.buf_cap, buf_end := d.buf_end + n }, ?_, rfl,
      by show d.buf_end + n ≤ d.buf.length; omega, rfl⟩
    simp only [add_buffer, dgsize_t_of_le hn1, check_add_length_fit hn1 h, Option.some_bind,
      dgsize_t_of_le hn]
  · refine ⟨{ buf := d.buf.take d.buf_cap ++ newArray (n + 64),
              buf_cap := dgsize_t (d.buf_cap + n + 64), buf_end := d.buf_end + n }, ?_, rfl,
      ?_, ?_⟩
    · simp only [add_buffer, dgsize_t_of_le hn1,
        check_add_length_grow hn1 hcl (show d.buf_cap < d.buf_end + n by omega),
        Option.some_bind, dgsize_t_of_le hn]
    · simp [List.length_take, Nat.min_eq_left hcl]
      omega
    · show List.take d.buf_end (List.take d.buf_cap d.buf ++ newArray (n + 64)) = _
      rw [List.take_append_of_le_length (by simp [List.length_take, Nat.min_eq_left hcl]; omega),
        List.take_take, Nat.min_eq_left hec]

/-- C11, witness: reserving 100 bytes in a Datagram that holds the bytes 1, 2, 3. -/
theorem add_buffer_reserves_witness :
    ∃ d', Datagram.add_buffer { buf := [1, 2, 3], buf_cap := 3, buf_end := 3 } 100
        = some (3, d') ∧ d'.size = 3 + 100 ∧ 3 + 100 ≤ d'.get_data.length ∧
      d'.get_data.take 3 = [1, 2, 3] :=
  add_buffer_reserves { buf := [1, 2, 3], buf_cap := 3, buf_end := 3 } 100 (by decide)
    (by decide) (by decide)

/-- C11, counterexample: `add_buffer(1)` on a Datagram that holds 65535 bytes returns the
handle at offset 65535, but `size()` is 0 afterwards, not 65536. -/
theorem add_buffer_size_counterexample :
    ∃ d p d', Datagram.ofRaw (zeros 65535) 65535 = some d ∧ d.size = 65535 ∧
      d.add_buffer 1 = some (p, d') ∧ p = 65535 ∧ d'.size = 0 := by
  have hl : ((zeros 65535).take 65535).length = 65535 := by
    rw [List.length_take, zeros_length]; decide
  have e0 : Datagram.ofRaw (zeros 65535) 65535
      = some { buf := (zeros 65535).take 65535, buf_cap := 65535, buf_end := 65535 } := by
    have h2 : dgsize_t 65535 = 65535 := by decide
    simp only [Datagram.ofRaw, h2, memcpy_new (show 65535 ≤ (zeros 65535).length by
      rw [zeros_length]), Option.some_bind]
  have h1 : dgsize_t 1 = 1 := by decide
  have hg := @check_add_length_grow
    { buf := (zeros 65535).take 65535, buf_cap := 65535, buf_end := 65535 } 1 (by decide)
    (by show 65535 ≤ _; rw [hl]) (by decide)
  refine ⟨_, 65535, Datagram.mk (((zeros 65535).take 65535).take 65535 ++ newArray (1 + 64))
    (dgsize_t (65535 + 1 + 64)) 0, e0, rfl, ?_, rfl, rfl⟩
  simp only [add_buffer, h1, hg, Option.some_bind]
  rfl

/-! ## C12 -/

theorem Fits_four_four {cap e : Nat} (he : e ≤ cap) (hc : cap ≤ 65535) (hf : Fits cap e [8]) :
    Fits cap e [4, 4] := by
  obtain ⟨h1, -⟩ := hf
  simp only [Fits, grow, and_true] at h1 ⊢
  constructor
  · split <;> split at h1 <;> omega
  · split <;> split <;> split at h1 <;> omega

/-- C12, as amended: for every Datagram with `buf_end ≤ buf_cap ≤` allocated size whose
capacity computation for 8 bytes stays at or below 65535, every parent id and every
zone, `add_location(parent, zone)` appends exactly `DOID_SIZE_BYTES + ZONE_SIZE_BYTES`
(= 8) bytes, the 4-byte encoding of `parent` followed by the 4-byte encoding of `zone`
with no length tag between them, and the resulting written bytes equal those produced by
`add_doid(parent)` followed by `add_zone(zone)`. -/
theorem add_location_encoding (d : Datagram) (parent zone : Nat) (hv : d.Valid)
    (hf : Fits d.buf_cap d.buf_end [8]) :
    ∃ d1 d2, d.add_location parent zone = some d1 ∧
      ((d.add_doid parent).bind fun x => x.add_zone zone) = some d2 ∧
      d1.bytes = d.bytes ++ leBytes DOID_SIZE_BYTES parent ++ leBytes ZONE_SIZE_BYTES zone ∧
      d1.size = d.size + (DOID_SIZE_BYTES + ZONE_SIZE_BYTES) ∧
      DOID_SIZE_BYTES + ZONE_SIZE_BYTES = 8 ∧
      (leBytes DOID_SIZE_BYTES parent).length = 4 ∧
      (leBytes ZONE_SIZE_BYTES zone).length = 4 ∧
      d2.bytes = d1.bytes := by
  obtain ⟨d1, e1, -, -, n1, b1⟩ := apply_spec (.add_location parent zone) hv trivial hf
  have hf2 := Fits_four_four hv.1 hv.2.2 hf
  obtain ⟨d2, e2, v2, c2, n2, b2⟩ := apply_spec (.add_doid parent) hv trivial ⟨hf2.1, trivial⟩
  obtain ⟨d3, e3, -, -, -, b3⟩ := @apply_spec d2 (.add_zone zone) v2 trivial
    (by rw [c2, n2]; exact hf2.2)
  refine ⟨d1, d3, e1, ?_, ?_, ?_, by decide, leBytes_length _ _, leBytes_length _ _, ?_⟩
  · simp only [Call.apply] at e2 e3
    rw [e2, Option.some_bind, e3]
  · rw [b1, Call.encoding, ← List.append_assoc]; rfl
  · simp only [size, n1, Call.encoding, List.length_append, leBytes_length]
    rfl
  · rw [b3, b2, b1]
    simp only [Call.encoding, List.append_assoc]

/-- C12, witness: the location (5, 7) appended to an empty Datagram. -/
theorem add_location_encoding_witness :
    ∃ d1 d2, Datagram.default.add_location 5 7 = some d1 ∧
      ((Datagram.default.add_doid 5).bind fun x => x.add_zone 7) = some d2 ∧
      d1.bytes = Datagram.default.bytes ++ leBytes DOID_SIZE_BYTES 5
        ++ leBytes ZONE_SIZE_BYTES 7 ∧
      d1.size = Datagram.default.size + (DOID_SIZE_BYTES + ZONE_SIZE_BYTES) ∧
      DOID_SIZE_BYTES + ZONE_SIZE_BYTES = 8 ∧
      (leBytes DOID_SIZE_BYTES 5).length = 4 ∧ (leBytes ZONE_SIZE_BYTES 7).length = 4 ∧
      d2.bytes = d1.bytes :=
  add_location_encoding Datagram.default 5 7 (by decide) (by decide)

theorem add_location_at_65500 (d : Datagram) (hE : d.buf_end = 65500) (hC : d.buf_cap = 65500)
    (hL : d.buf.length = 65500) :
    (∃ d1, d.add_location 5 7 = some d1 ∧ d1.size = 65508) ∧
    ((d.add_doid 5).bind fun x => x.add_zone 7) = none := by
  have h8 : DOID_SIZE_BYTES + ZONE_SIZE_BYTES = 8 := by decide
  have hz : ZONE_SIZE_BYTES = 4 := by decide
  have hd : DOID_SIZE_BYTES = 4 := rfl
  constructor
  · -- one reallocation to 65572 bytes, then two copies of four bytes
    have hg := @check_add_length_grow d 8 (by decide) (by omega) (by omega)
    have hl1 : (d.buf.take d.buf_cap ++ newArray (8 + 64)).length = 65572 := by
      rw [List.length_append, List.length_take, newArray_length, hL, hC]; decide
    have hp := @put_put
      (Datagram.mk (d.buf.take d.buf_cap ++ newArray (8 + 64)) (dgsize_t (d.buf_cap + 8 + 64))
        d.buf_end) (leBytes 4 5) (leBytes 4 7)
      (by show d.buf_end + (leBytes 4 5).length + (leBytes 4 7).length ≤ _
          rw [hl1, leBytes_length, leBytes_length, hE]; decide)
      (by show d.buf_end + (leBytes 4 5).length + (leBytes 4 7).length ≤ _
          rw [leBytes_length, leBytes_length, hE]; decide)
    have hlen : (leBytes 4 5 ++ leBytes 4 7).length = 8 := by
      rw [List.length_append, leBytes_length, leBytes_length]
    have hq := @put_eq_some
      (Datagram.mk (d.buf.take d.buf_cap ++ newArray (8 + 64)) (dgsize_t (d.buf_cap + 8 + 64))
        d.buf_end) (leBytes 4 5 ++ leBytes 4 7)
      (by show d.buf_end + (leBytes 4 5 ++ leBytes 4 7).length ≤ _
          rw [hl1, hlen, hE]; decide)
    rw [leBytes_length, leBytes_length] at hp
    have hloc : d.add_location 5 7
        = ((Datagram.put (Datagram.mk (d.buf.take d.buf_cap ++ newArray (8 + 64))
            (dgsize_t (d.buf_cap + 8 + 64)) d.buf_end) (leBytes 4 5) 4).bind
            fun d => d.put (leBytes 4 7) 4) := by
      simp only [add_location, h8, hz, hd, hg, Option.some_bind]
    exact ⟨_, hloc.trans (hp.trans hq),
      (by show dgsize_t (d.buf_end + (leBytes 4 5 ++ leBytes 4 7).length) = 65508
          rw [hlen, hE]; decide)⟩
  · -- `add_doid` stores the wrapped capacity 32, so `add_zone` reallocates to 100 bytes
    obtain ⟨d2, e2, n2, c2, l2, -⟩ := @appendChunk_grow d (leBytes 4 5) (by omega) (by omega)
      (by rw [leBytes_length]; decide) (by rw [leBytes_length]; omega)
    rw [leBytes_length, hE] at n2
    rw [leBytes_length, hC] at c2 l2
    have hn2 : d2.buf_end = 65504 := by rw [n2]; decide
    have hc2 : d2.buf_cap = 32 := by rw [c2]; decide
    have hg2 := @check_add_length_grow d2 4 (by decide) (by rw [hc2, l2]; decide)
      (by rw [hc2, hn2]; decide)
    have ha : d.add_doid 5 = some d2 := e2
    rw [ha, Option.some_bind]
    simp only [add_zone, hz, hg2, Option.some_bind, put, memcpy, List.length_append,
      List.length_take, newArray_length, l2, hc2, hn2]
    rw [if_neg (fun h => absurd h.1 (by decide))]
    rfl

/-- C12, counterexample: on a Datagram that holds 65500 bytes `add_location(5, 7)` grows the
array once and succeeds, while `add_doid(5)` stores the wrapped capacity
`65568 mod 65536 = 32`, so that `add_zone(7)` reallocates to 100 bytes and copies out of
bounds: the two do not produce the same written bytes. -/
theorem add_location_counterexample :
    ∃ d d1, Datagram.ofRaw (zeros 65500) 65500 = some d ∧ d.size = 65500 ∧
      d.add_location 5 7 = some d1 ∧ d1.size = 65508 ∧
      ((d.add_doid 5).bind fun x => x.add_zone 7) = none := by
  have hl : ((zeros 65500).take 65500).length = 65500 := by
    rw [List.length_take, zeros_length]; decide
  have e0 : Datagram.ofRaw (zeros 65500) 65500
      = some { buf := (zeros 65500).take 65500, buf_cap := 65500, buf_end := 65500 } := by
    have h2 : dgsize_t 65500 = 65500 := by decide
    simp only [Datagram.ofRaw, h2, memcpy_new (show 65500 ≤ (zeros 65500).length by
      rw [zeros_length]), Option.some_bind]
  obtain ⟨⟨d1, e1, s1⟩, hnone⟩ := add_location_at_65500
    { buf := (zeros 65500).take 65500, buf_cap := 65500, buf_end := 65500 } rfl rfl
    (by show ((zeros 65500).take 65500).length = 65500; exact hl)
  exact ⟨_, d1, e0, rfl, e1, s1, hnone⟩

/-! ## C13 -/

theorem leValue_leBytes (n v : Nat) : leValue (leBytes n v) = v % 256 ^ n := by
  induction n generalizing v with
  | zero => simp [leBytes, leValue, Nat.mod_one]
  | succ n ih =>
    simp only [leBytes, leValue, ih, Nat.pow_succ]
    rw [Nat.mul_comm (256 ^ n) 256, Nat.mod_mul, Nat.add_comm]

namespace Datagram

/-- One growth-checked copy whose end offset is at most 65535: it returns and appends the
bytes, whether or not the stored capacity wraps. -/
theorem appendChunk_within {d : Datagram} (src : List Nat) (hec : d.buf_end ≤ d.buf_cap)
    (hcl : d.buf_cap ≤ d.buf.length) (hn : d.buf_end + src.length ≤ 65535) :
    ∃ d', d.appendChunk src = some d' ∧ d'.bytes = d.bytes ++ src ∧
      d'.size = d.size + src.length := by
  by_cases h : d.buf_end + src.length ≤ d.buf_cap
  · refine ⟨{ buf := d.buf.take d.buf_end ++ src ++ d.buf.drop (d.buf_end + src.length),
              buf_cap := d.buf_cap, buf_end := d.buf_end + src.length }, ?_, ?_, rfl⟩
    · rw [appendChunk, check_add_length_fit (by omega) h, Option.some_bind,
        put_eq_some (by omega), dgsize_t_of_le hn]
    · simp only [bytes, size, get_data]
      exact take_put_buf _ _ _ (by omega)
  · obtain ⟨d1, e1, n1, -, -, t1⟩ := @appendChunk_grow d src hec hcl (by omega) (by omega)
    rw [dgsize_t_of_le hn] at n1
    refine ⟨d1, e1, ?_, n1⟩
    simp only [bytes, size, get_data, n1]
    exact t1

end Datagram

/-- C13, as amended: for every Datagram with `buf_end ≤ buf_cap ≤` allocated size and
every value `v` of width `w` in {1, 2, 4, 8} bytes with `size() + w ≤ 65535`,
`add_uint8/add_uint16/add_uint32/add_uint64(v)` returns and appends exactly `w` bytes whose
interpretation in little-endian byte order, the byte order of the WebAssembly host, equals
`v`; and `add_bool(b)`, when `size() + 1 ≤ 65535`, appends exactly one byte, 1 when `b` is
true and 0 when it is false. -/
theorem fixed_width_encoding (d : Datagram) (hec : d.buf_end ≤ d.buf_cap)
    (hcl : d.buf_cap ≤ d.buf.length) :
    (∀ v, v < 256 ^ 1 → d.size + 1 ≤ 65535 →
      ∃ d' bs, d.add_uint8 v = some d' ∧ d'.bytes = d.bytes ++ bs ∧ bs.length = 1 ∧
        leValue bs = v ∧ d'.size = d.size + 1) ∧
    (∀ v, v < 256 ^ 2 → d.size + 2 ≤ 65535 →
      ∃ d' bs, d.add_uint16 v = some d' ∧ d'.bytes = d.bytes ++ bs ∧ bs.length = 2 ∧
        leValue bs = v ∧ d'.size = d.size + 2) ∧
    (∀ v, v < 256 ^ 4 → d.size + 4 ≤ 65535 →
      ∃ d' bs, d.add_uint32 v = some d' ∧ d'.bytes = d.bytes ++ bs ∧ bs.length = 4 ∧
        leValue bs = v ∧ d'.size = d.size + 4) ∧
    (∀ v, v < 256 ^ 8 → d.size + 8 ≤ 65535 →
      ∃ d' bs, d.add_uint64 v = some d' ∧ d'.bytes = d.bytes ++ bs ∧ bs.length = 8 ∧
        leValue bs = v ∧ d'.size = d.size + 8) ∧
    (∀ b : Bool, d.size + 1 ≤ 65535 →
      ∃ d', d.add_bool b = some d' ∧ d'.bytes = d.bytes ++ [if b then 1 else 0] ∧
        d'.size = d.size + 1) := by
  have key : ∀ (n v : Nat), v < 256 ^ n → d.size + n ≤ 65535 →
      ∃ d' bs, d.appendChunk (leBytes n v) = some d' ∧ d'.bytes = d.bytes ++ bs ∧
        bs.length = n ∧ leValue bs = v ∧ d'.size = d.size + n := by
    intro n v h hs
    obtain ⟨d1, e1, b1, n1⟩ := appendChunk_within (leBytes n v) hec hcl
      (by rw [leBytes_length]; exact hs)
    rw [leBytes_length] at n1
    exact ⟨d1, leBytes n v, e1, b1, leBytes_length _ _,
      by rw [leValue_leBytes, Nat.mod_eq_of_lt h], n1⟩
  refine ⟨fun v h hs => key 1 v h hs, fun v h hs => key 2 v h hs, fun v h hs => key 4 v h hs,
    fun v h hs => key 8 v h hs, fun b hs => ?_⟩
  obtain ⟨d1, e1, b1, n1⟩ := appendChunk_within [if b then 1 else 0] hec hcl hs
  refine ⟨d1, ?_, b1, n1⟩
  rw [← e1]
  cases b <;> rfl

/-- C13, witness: on a Datagram that holds the three bytes 9, 9, 9, the values 200,
0x1234, 0x12345678 and 0x123456789abcdef0 in the four widths, and the boolean true. -/
theorem fixed_width_encoding_witness :
    (∃ d' bs, (Datagram.mk [9, 9, 9] 3 3).add_uint8 200 = some d' ∧
      d'.bytes = (Datagram.mk [9, 9, 9] 3 3).bytes ++ bs ∧ bs.length = 1 ∧
      leValue bs = 200 ∧ d'.size = (Datagram.mk [9, 9, 9] 3 3).size + 1) ∧
    (∃ d' bs, (Datagram.mk [9, 9, 9] 3 3).add_uint16 4660 = some d' ∧
      d'.bytes = (Datagram.mk [9, 9, 9] 3 3).bytes ++ bs ∧ bs.length = 2 ∧
      leValue bs = 4660 ∧ d'.size = (Datagram.mk [9, 9, 9] 3 3).size + 2) ∧
    (∃ d' bs, (Datagram.mk [9, 9, 9] 3 3).add_uint32 305419896 = some d' ∧
      d'.bytes = (Datagram.mk [9, 9, 9] 3 3).bytes ++ bs ∧ bs.length = 4 ∧
      leValue bs = 305419896 ∧ d'.size = (Datagram.mk [9, 9, 9] 3 3).size + 4) ∧
    (∃ d' bs, (Datagram.mk [9, 9, 9] 3 3).add_uint64 1311768467463790320 = some d' ∧
      d'.bytes = (Datagram.mk [9, 9, 9] 3 3).bytes ++ bs ∧ bs.length = 8 ∧
      leValue bs = 1311768467463790320 ∧ d'.size = (Datagram.mk [9, 9, 9] 3 3).size + 8) ∧
    (∃ d', (Datagram.mk [9, 9, 9] 3 3).add_bool true = some d' ∧
      d'.bytes = (Datagram.mk [9, 9, 9] 3 3).bytes ++ [if true then 1 else 0] ∧
      d'.size = (Datagram.mk [9, 9, 9] 3 3).size + 1) := by
  have h := fixed_width_encoding (Datagram.mk [9, 9, 9] 3 3) (by decide) (by decide)
  exact ⟨h.1 200 (by decide) (by decide), h.2.1 4660 (by decide) (by decide),
    h.2.2.1 305419896 (by decide) (by decide),
    h.2.2.2.1 1311768467463790320 (by decide) (by decide), h.2.2.2.2 true (by decide)⟩

/-- C13, counterexample: `add_uint8(7)` on a Datagram that holds 65535 bytes copies the
byte to offset 65535 of the reallocated array and returns with `size()` 0, not 65536: a
reader sees no byte at all. -/
theorem fixed_width_size_counterexample :
    ∃ d d', Datagram.ofRaw (zeros 65535) 65535 = some d ∧ d.size = 65535 ∧
      d.add_uint8 7 = some d' ∧ d'.size = 0 ∧ d'.bytes = [] := by
  have hl : ((zeros 65535).take 65535).length = 65535 := by
    rw [List.length_take, zeros_length]; decide
  have e0 : Datagram.ofRaw (zeros 65535) 65535
      = some { buf := (zeros 65535).take 65535, buf_cap := 65535, buf_end := 65535 } := by
    have h2 : dgsize_t 65535 = 65535 := by decide
    simp only [Datagram.ofRaw, h2, memcpy_new (show 65535 ≤ (zeros 65535).length by
      rw [zeros_length]), Option.some_bind]
  obtain ⟨d', e, n, -, -⟩ := appendChunk_at_65535
    { buf := (zeros 65535).take 65535, buf_cap := 65535, buf_end := 65535 } rfl rfl
    (by show ((zeros 65535).take 65535).length = 65535; exact hl) (leBytes 1 7) rfl
  refine ⟨_, d', e0, rfl, e, n, ?_⟩
  simp [bytes, size, get_data, n]

/-! ## C14 -/

theorem location_as_channel_eq_add (parent zone : Nat) (hp : parent < 2 ^ 32)
    (hz : zone < 2 ^ 32) : location_as_channel parent zone = 2 ^ 32 * parent + zone := by
  have h1 : parent % 2 ^ 32 % 2 ^ 64 = parent := by omega
  have h2 : zone % 2 ^ 32 % 2 ^ 64 = zone := by omega
  have h3 : parent * 2 ^ 32 % 2 ^ 64 = 2 ^ 32 * parent := by omega
  simp only [location_as_channel, channel_t, doid_t, zone_t, ZONE_BITS, sizeof_zone_t,
    Nat.shiftLeft_eq, h1, h2, Nat.reduceMul, h3]
  exact (Nat.mul_add_lt_is_or hz parent).symm

/-- C14: for every 32-bit parent and 32-bit zone, `location_as_channel(parent, zone)`
equals `(parent << 32) | zone` computed in 64 bits, with
`ZONE_BITS = 8 * sizeof(zone_t) = 32`; in particular
`location_as_channel(5, 7) = (5 << 32) | 7`. -/
theorem location_as_channel_value (parent zone : Nat) (hp : parent < 2 ^ 32)
    (hz : zone < 2 ^ 32) :
    location_as_channel parent zone = (parent <<< 32) ||| zone ∧
    location_as_channel parent zone < 2 ^ 64 ∧
    ZONE_BITS = 8 * sizeof_zone_t ∧ ZONE_BITS = 32 ∧
    location_as_channel 5 7 = (5 <<< 32) ||| 7 := by
  have h := location_as_channel_eq_add parent zone hp hz
  refine ⟨?_, by rw [h]; omega, rfl, rfl, by decide⟩
  rw [h, Nat.shiftLeft_eq, Nat.mul_comm parent]
  exact Nat.mul_add_lt_is_or hz parent

/-- C14, witness: the location channel of parent 5 and zone 7. -/
theorem location_as_channel_value_witness :
    location_as_channel 5 7 = (5 <<< 32) ||| 7 ∧ location_as_channel 5 7 < 2 ^ 64 ∧
    ZONE_BITS = 8 * sizeof_zone_t ∧ ZONE_BITS = 32 ∧
    location_as_channel 5 7 = (5 <<< 32) ||| 7 :=
  location_as_channel_value 5 7 (by decide) (by decide)

/-! ## C15 -/

theorem parent_to_children_eq_add (p : Nat) (hp : p < 2 ^ 32) :
    parent_to_children p = 2 ^ 32 + p := by
  have h1 : p % 2 ^ 32 % 2 ^ 64 = p := by omega
  have h2 : PARENT_PREFIX = 2 ^ 32 * 1 := by decide
  simp only [parent_to_children, channel_t, doid_t, h1, h2]
  exact (Nat.mul_add_lt_is_or hp 1).symm

theorem database_to_object_eq_add (id : Nat) (hi : id < 2 ^ 32) :
    database_to_object id = 2 ^ 33 + id := by
  have h1 : id % 2 ^ 32 % 2 ^ 64 = id := by omega
  have h2 : DATABASE_PREFIX = 2 ^ 32 * 2 := by decide
  simp only [database_to_object, channel_t, doid_t, h1, h2]
  exact (Nat.mul_add_lt_is_or hi 2).symm

/-- C15, as amended: a structural channel is the location channel of parent 1 or of
parent 2 and of no other parent. For all 32-bit `p`, `id`, `parent` and `zone`,
`parent_to_children(p) = location_as_channel(parent, zone)` exactly when `parent = 1` and
`zone = p`, and `database_to_object(id) = location_as_channel(parent, zone)` exactly when
`parent = 2` and `zone = id`; so structural channels cannot alias the location channel of
any parent other than 1 and 2. -/
theorem structural_channel_aliasing (p id parent zone : Nat) (hp : p < 2 ^ 32)
    (hi : id < 2 ^ 32) (hq : parent < 2 ^ 32) (hz : zone < 2 ^ 32) :
    (parent_to_children p = location_as_channel parent zone ↔ parent = 1 ∧ zone = p) ∧
    (database_to_object id = location_as_channel parent zone ↔ parent = 2 ∧ zone = id) ∧
    (parent ≠ 1 → parent_to_children p ≠ location_as_channel parent zone) ∧
    (parent ≠ 2 → database_to_object id ≠ location_as_channel parent zone) := by
  rw [parent_to_children_eq_add p hp, database_to_object_eq_add id hi,
    location_as_channel_eq_add parent zone hq hz]
  refine ⟨?_, ?_, ?_, ?_⟩ <;> omega

/-- C15, witness: the children channel of parent 5 against the location (7, 9). -/
theorem structural_channel_aliasing_witness :
    (parent_to_children 5 = location_as_channel 7 9 ↔ 7 = 1 ∧ 9 = 5) ∧
    (database_to_object 6 = location_as_channel 7 9 ↔ 7 = 2 ∧ 9 = 6) ∧
    (7 ≠ 1 → parent_to_children 5 ≠ location_as_channel 7 9) ∧
    (7 ≠ 2 → database_to_object 6 ≠ location_as_channel 7 9) :=
  structural_channel_aliasing 5 6 7 9 (by decide) (by decide) (by decide) (by decide)

/-- C15, counterexample: the children channel of parent 5 is the location channel of
parent 1 and zone 5, and the database channel of object 5 is the location channel of
parent 2 and zone 5. -/
theorem structural_channel_aliasing_counterexample :
    parent_to_children 5 = location_as_channel 1 5 ∧
    database_to_object 5 = location_as_channel 2 5 := by
  decide

/-! ## C16 -/

/-- C16: for all 32-bit identifiers `d`, `p` and `id`, the plain object channel
`channel_t(d)` differs from `parent_to_children(p) = PARENT_PREFIX | p` and from
`database_to_object(id) = DATABASE_PREFIX | id`, and `parent_to_children(p)` differs from
`database_to_object(id)`. -/
theorem object_and_structural_channels_differ (d p id : Nat) (hd : d < 2 ^ 32)
    (hp : p < 2 ^ 32) (hi : id < 2 ^ 32) :
    channel_t d ≠ parent_to_children p ∧ channel_t d ≠ database_to_object id ∧
    parent_to_children p ≠ database_to_object id ∧
    parent_to_children p = PARENT_PREFIX ||| p ∧
    database_to_object id = DATABASE_PREFIX ||| id := by
  have h1 : p % 2 ^ 32 % 2 ^ 64 = p := by omega
  have h2 : id % 2 ^ 32 % 2 ^ 64 = id := by omega
  have h3 : channel_t d = d := by unfold channel_t; omega
  refine ⟨?_, ?_, ?_, by simp only [parent_to_children, channel_t, doid_t, h1],
    by simp only [database_to_object, channel_t, doid_t, h2]⟩
  · rw [h3, parent_to_children_eq_add p hp]; omega
  · rw [h3, database_to_object_eq_add id hi]; omega
  · rw [parent_to_children_eq_add p hp, database_to_object_eq_add id hi]; omega

/-- C16, witness: the identifiers 5, 5 and 5. -/
theorem object_and_structural_channels_differ_witness :
    channel_t 5 ≠ parent_to_children 5 ∧ channel_t 5 ≠ database_to_object 5 ∧
    parent_to_children 5 ≠ database_to_object 5 ∧
    parent_to_children 5 = PARENT_PREFIX ||| 5 ∧
    database_to_object 5 = DATABASE_PREFIX ||| 5 :=
  object_and_structural_channels_differ 5 5 5 (by decide) (by decide) (by decide)

/-! ## C17 -/

/-- C17: for every close code and reason, `Connection::disconnect` called on a Connection
that holds no socket (handle 0) returns success, performs no socket operation (the log
of host calls is unchanged) and leaves the handle 0; hence a second consecutive call,
with any code and reason, again returns success and performs no socket operation. -/
theorem disconnect_without_socket (host : Host) (c : Connection) (log : List SocketCall)
    (code : Nat) (reason : String) (code2 : Nat) (reason2 : String) (h : c.m_socket = 0) :
    c.disconnect host log code reason = (EMSCRIPTEN_RESULT_SUCCESS, c, log) ∧
    (c.disconnect host log code reason).2.1.m_socket = 0 ∧
    (c.disconnect host log code reason).2.1.disconnect host
        (c.disconnect host log code reason).2.2 code2 reason2
      = (EMSCRIPTEN_RESULT_SUCCESS, c, log) := by
  have h1 : c.disconnect host log code reason = (EMSCRIPTEN_RESULT_SUCCESS, c, log) := by
    simp [Connection.disconnect, h]
  have h2 : c.disconnect host log code2 reason2 = (EMSCRIPTEN_RESULT_SUCCESS, c, log) := by
    simp [Connection.disconnect, h]
  rw [h1]
  exact ⟨rfl, h, h2⟩

/-- C17, witness: two disconnects of a Connection that never opened a socket, against a host
that would refuse every close. -/
theorem disconnect_without_socket_witness :
    Connection.disconnect closeFailsHost { m_socket := 0 } [] 1000 "bye"
      = (EMSCRIPTEN_RESULT_SUCCESS, { m_socket := 0 }, []) ∧
    (Connection.disconnect closeFailsHost { m_socket := 0 } [] 1000 "bye").2.1.m_socket = 0 ∧
    (Connection.disconnect closeFailsHost { m_socket := 0 } [] 1000 "bye").2.1.disconnect
        closeFailsHost (Connection.disconnect closeFailsHost { m_socket := 0 } [] 1000 "bye").2.2
        1001 "again"
      = (EMSCRIPTEN_RESULT_SUCCESS, { m_socket := 0 }, []) :=
  disconnect_without_socket closeFailsHost { m_socket := 0 } [] 1000 "bye" 1001 "again" rfl

/-! ## C18 -/

/-- C18, as amended: for every Connection holding a non-zero handle and every code and
reason, `Connection::disconnect(code, reason)` requests a close of that socket with the
given code and reason. When the host answers the close with success, `disconnect` then
deletes the handle, returns the result of the delete and clears the stored handle to 0,
so that an immediately following `disconnect` performs no socket operation. When the
host answers the close with an error, `disconnect` returns that error, deletes nothing
and keeps the handle. -/
theorem disconnect_with_socket (host : Host) (c : Connection) (log : List SocketCall)
    (code : Nat) (reason : String) (h : c.m_socket ≠ 0) :
    (host.emscripten_websocket_close log c.m_socket code reason = EMSCRIPTEN_RESULT_SUCCESS →
      c.disconnect host log code reason
        = (host.emscripten_websocket_delete
              (log ++ [.emscripten_websocket_close c.m_socket code reason
                EMSCRIPTEN_RESULT_SUCCESS]) c.m_socket,
            { m_socket := 0 },
            log ++ [.emscripten_websocket_close c.m_socket code reason
                EMSCRIPTEN_RESULT_SUCCESS]
              ++ [.emscripten_websocket_delete c.m_socket
                (host.emscripten_websocket_delete
                  (log ++ [.emscripten_websocket_close c.m_socket code reason
                    EMSCRIPTEN_RESULT_SUCCESS]) c.m_socket)]) ∧
      ∀ (code2 : Nat) (reason2 : String),
        (c.disconnect host log code reason).2.1.disconnect host
            (c.disconnect host log code reason).2.2 code2 reason2
          = (EMSCRIPTEN_RESULT_SUCCESS, { m_socket := 0 },
              (c.disconnect host log code reason).2.2)) ∧
    (host.emscripten_websocket_close log c.m_socket code reason ≠ EMSCRIPTEN_RESULT_SUCCESS →
      c.disconnect host log code reason
        = (host.emscripten_websocket_close log c.m_socket code reason, c,
            log ++ [.emscripten_websocket_close c.m_socket code reason
              (host.emscripten_websocket_close log c.m_socket code reason)])) := by
  constructor
  · intro hs
    have h1 : c.disconnect host log code reason
        = (host.emscripten_websocket_delete
              (log ++ [.emscripten_websocket_close c.m_socket code reason
                EMSCRIPTEN_RESULT_SUCCESS]) c.m_socket,
            { m_socket := 0 },
            log ++ [.emscripten_websocket_close c.m_socket code reason
                EMSCRIPTEN_RESULT_SUCCESS]
              ++ [.emscripten_websocket_delete c.m_socket
                (host.emscripten_websocket_delete
                  (log ++ [.emscripten_websocket_close c.m_socket code reason
                    EMSCRIPTEN_RESULT_SUCCESS]) c.m_socket)]) := by
      simp [Connection.disconnect, h, hs]
    refine ⟨h1, fun code2 reason2 => ?_⟩
    rw [h1]
    simp [Connection.disconnect]
  · intro hs
    simp [Connection.disconnect, h, hs]

/-- C18, witness: a Connection holding handle 1 disconnects against a host that accepts the
close and the delete. -/
theorem disconnect_with_socket_witness :
    Connection.disconnect freshHost { m_socket := 1 } [] 1000 "bye"
      = (0, { m_socket := 0 },
          [.emscripten_websocket_close 1 1000 "bye" 0, .emscripten_websocket_delete 1 0]) ∧
    Connection.disconnect freshHost { m_socket := 0 }
        [.emscripten_websocket_close 1 1000 "bye" 0, .emscripten_websocket_delete 1 0]
        1001 "again"
      = (0, { m_socket := 0 },
          [.emscripten_websocket_close 1 1000 "bye" 0, .emscripten_websocket_delete 1 0]) := by
  have h := (disconnect_with_socket freshHost { m_socket := 1 } [] 1000 "bye"
    (by decide)).1 rfl
  have h1 := h.1
  have h2 := h.2 1001 "again"
  rw [h1] at h2
  exact ⟨h1, h2⟩

/-- C18, counterexample: when the host answers the close with an error (-3), `disconnect`
on a Connection holding handle 1 returns -3, deletes nothing and keeps handle 1, and the
following `disconnect` performs a socket operation again. -/
theorem disconnect_close_error_counterexample :
    Connection.disconnect closeFailsHost { m_socket := 1 } [] 1000 "bye"
      = (-3, { m_socket := 1 }, [.emscripten_websocket_close 1 1000 "bye" (-3)]) ∧
    Connection.disconnect closeFailsHost { m_socket := 1 }
        [.emscripten_websocket_close 1 1000 "bye" (-3)] 1000 "bye"
      = (-3, { m_socket := 1 },
          [.emscripten_websocket_close 1 1000 "bye" (-3),
           .emscripten_websocket_close 1 1000 "bye" (-3)]) := by
  constructor <;> rfl

/-! ## C19 -/

/-- The log after `connect_socket`: the old log and one `emscripten_websocket_new` call. -/
theorem connect_socket_log (host : Host) (c : Connection) (log : List SocketCall)
    (url : String) :
    (c.connect_socket host log url).2
      = log ++ [.emscripten_websocket_new ("wss://" ++ url) "binary" 1
          (c.connect_socket host log url).1.m_socket] := rfl

/-- C19: for every url string, `Connection::connect_socket(url)` opens exactly one
underlying socket: it makes exactly one host call, an `emscripten_websocket_new` whose
URL is `wss://` followed by the given url and whose subprotocol is `binary`, and it
stores the handle that this call returned as the Connection's socket. -/
theorem connect_socket_opens_one (host : Host) (c : Connection) (log : List SocketCall)
    (url : String) :
    ∃ handle : Int,
      c.connect_socket host log url
        = ({ m_socket := handle },
            log ++ [.emscripten_websocket_new ("wss://" ++ url) "binary" 1 handle]) ∧
      handle = host.emscripten_websocket_new log ("wss://" ++ url) "binary" 1 ∧
      (c.connect_socket host log url).2.length = log.length + 1 ∧
      (c.connect_socket host log url).2.take log.length = log := by
  refine ⟨host.emscripten_websocket_new log ("wss://" ++ url) "binary" 1, rfl, rfl, ?_, ?_⟩
  · rw [connect_socket_log]; simp
  · rw [connect_socket_log]; simp

/-! ## C20 -/

/-- C20, the code at the failing input: against a host that hands out fresh handles,
`connect_socket` called twice on a Connection without a socket creates the sockets 1 and
2, closes and deletes neither, and stores only handle 2: socket 1 is live and is not the
stored handle, and two sockets are live. -/
theorem connect_socket_twice_leaks :
    ((Connection.connect_socket freshHost { m_socket := 0 } [] "a").1.connect_socket freshHost
        (Connection.connect_socket freshHost { m_socket := 0 } [] "a").2 "b").1.m_socket = 2 ∧
    liveSockets ((Connection.connect_socket freshHost { m_socket := 0 } [] "a").1.connect_socket
        freshHost (Connection.connect_socket freshHost { m_socket := 0 } [] "a").2 "b").2
      = [1, 2] ∧
    ¬ (liveSockets ((Connection.connect_socket freshHost { m_socket := 0 } []
        "a").1.connect_socket freshHost
        (Connection.connect_socket freshHost { m_socket := 0 } [] "a").2 "b").2).length ≤ 1 := by
  refine ⟨?_, ?_, ?_⟩ <;> decide

/-! ## C21 -/

/-- C21, the code at the failing input: for every uri, schema hash and version,
`ClientConnection::connect(uri, dc_hash, version)` does what `connect_socket(uri)` does
and nothing more. The host calls it makes are exactly one `emscripten_websocket_new`;
no Hello datagram carrying `dc_hash` and `version` is built or sent, and the result does
not depend on `dc_hash` or `version`. -/
theorem client_connect_sends_no_hello (host : Host) (c : Connection) (log : List SocketCall)
    (uri : String) (dc_hash : Nat) (version : String) :
    ClientConnection.connect host c log uri dc_hash version = c.connect_socket host log uri ∧
    (ClientConnection.connect host c log uri dc_hash version).2
      = log ++ [.emscripten_websocket_new ("wss://" ++ uri) "binary" 1
          (host.emscripten_websocket_new log ("wss://" ++ uri) "binary" 1)] ∧
    ∀ (dc_hash2 : Nat) (version2 : String),
      ClientConnection.connect host c log uri dc_hash2 version2
        = ClientConnection.connect host c log uri dc_hash version :=
  ⟨rfl, rfl, fun _ _ => rfl⟩

/-! ## C22 -/

/-- C22, the code at the failing input: `ClientConnection::disconnect()` has an empty body.
For every state it makes no host call and leaves the socket handle as it is, so a
ClientConnection that holds socket 1 still holds socket 1 after it returns. -/
theorem client_disconnect_does_nothing (c : Connection) (log : List SocketCall) :
    ClientConnection.disconnect c log = (c, log) ∧
    (ClientConnection.disconnect { m_socket := 1 } log).1.m_socket = 1 ∧
    (ClientConnection.disconnect { m_socket := 1 } log).2 = log :=
  ⟨rfl, rfl, rfl⟩

/-! ## C23 -/

/-- C23, the code in both builds: in the default build the byte widths the codec writes
equal the widths of the identifier types (8, 4, 4). In the `ASTRON_128BIT_CHANNELS` build
the types are 16, 8 and 8 bytes wide, but the constants are still 8, 4 and 4, so none of
the three equalities holds there. -/
theorem size_constants_by_build :
    (Build.default.CHANNEL_SIZE_BYTES = Build.default.sizeof_channel_t ∧
      Build.default.DOID_SIZE_BYTES = Build.default.sizeof_doid_t ∧
      Build.default.ZONE_SIZE_BYTES = Build.default.sizeof_zone_t ∧
      Build.default.CHANNEL_SIZE_BYTES = 8 ∧ Build.default.DOID_SIZE_BYTES = 4 ∧
      Build.default.ZONE_SIZE_BYTES = 4) ∧
    (Build.ASTRON_128BIT_CHANNELS.sizeof_channel_t = 16 ∧
      Build.ASTRON_128BIT_CHANNELS.sizeof_doid_t = 8 ∧
      Build.ASTRON_128BIT_CHANNELS.sizeof_zone_t = 8 ∧
      Build.ASTRON_128BIT_CHANNELS.CHANNEL_SIZE_BYTES = 8 ∧
      Build.ASTRON_128BIT_CHANNELS.DOID_SIZE_BYTES = 4 ∧
      Build.ASTRON_128BIT_CHANNELS.ZONE_SIZE_BYTES = 4 ∧
      Build.ASTRON_128BIT_CHANNELS.CHANNEL_SIZE_BYTES
        ≠ Build.ASTRON_128BIT_CHANNELS.sizeof_channel_t ∧
      Build.ASTRON_128BIT_CHANNELS.DOID_SIZE_BYTES
        ≠ Build.ASTRON_128BIT_CHANNELS.sizeof_doid_t ∧
      Build.ASTRON_128BIT_CHANNELS.ZONE_SIZE_BYTES
        ≠ Build.ASTRON_128BIT_CHANNELS.sizeof_zone_t) := by
  decide

/-! ## C24 -/

theorem grow_le_of_room {cap e n : Nat} (h : cap + n + 64 ≤ 65535) : grow cap e n ≤ 65535 := by
  unfold grow; split <;> omega

theorem Fits_cap_le {cap e : Nat} {ns : List Nat} (h : Fits cap e ns) (hn : ns ≠ []) :
    cap ≤ 65535 := by
  cases ns with
  | nil => exact absurd rfl hn
  | cons n ns =>
    have := h.1
    unfold grow at this
    split at this <;> omega

/-- The only call without a `check_add_length` is `add_data` of an empty vector, which
leaves the Datagram as it is. -/
theorem apply_of_lens_nil (d : Datagram) (c : Call) (h : c.lens = []) :
    c.apply d = some d ∧ c.encoding = [] := by
  cases c <;> simp [Call.lens] at h
  case add_data data =>
    subst h
    exact ⟨rfl, rfl⟩

theorem appended_of_bytes {d d1 : Datagram} {src : List Nat} (hel : d.buf_end ≤ d.buf.length)
    (n1 : d1.buf_end = d.buf_end + src.length) (hc : d1.buf_end ≤ d1.buf_cap)
    (b1 : d1.bytes = d.bytes ++ src) : d.Appended src d1 := by
  have hl : (d.buf.take d.buf_end).length = d.buf_end := by
    rw [List.length_take, Nat.min_eq_left hel]
  simp only [bytes, size, get_data, n1] at b1
  refine ⟨n1, hc, ?_, ?_⟩
  · have := congrArg (List.take d.buf_end) b1
    rw [List.take_take, Nat.min_eq_left (by omega),
      List.take_append_of_le_length (by omega), List.take_take, Nat.min_self] at this
    exact this
  · show (d1.buf.drop d.buf_end).take src.length = src
    rw [List.take_drop, b1, List.drop_left' hl]

namespace Datagram

/-- A string of 100 bytes appended by `add_string` to a Datagram that holds 65369 bytes in
an array of 65369: the check for the tag stores the capacity 65369 + 2 + 64 = 65435, the
check for the characters computes 65435 + 100 + 64 = 65599 and stores 63. -/
theorem add_string_at_65369 (d : Datagram) (hE : d.buf_end = 65369) (hC : d.buf_cap = 65369)
    (hL : d.buf.length = 65369) (str : List Nat) (hs : str.length = 100) :
    ∃ d', d.add_string str = some d' ∧ d'.buf_end = 65471 ∧ d'.buf_cap = 63 := by
  obtain ⟨d1, e1, v1, c1, n1, -⟩ := @appendChunk_spec d (leBytes 2 str.length)
    ⟨by omega, by omega, by omega⟩ (by rw [leBytes_length, hC, hE]; decide)
  rw [leBytes_length, hC, hE] at c1
  rw [leBytes_length, hE] at n1
  have c1' : d1.buf_cap = 65435 := c1.trans (by decide)
  have n1' : d1.buf_end = 65371 := n1
  obtain ⟨d2, e2, n2, c2, -, -⟩ := @appendChunk_grow d1 str v1.1 v1.2.1 (by omega) (by omega)
  rw [hs, n1'] at n2
  rw [hs, c1'] at c2
  refine ⟨d2, ?_, n2.trans (by decide), c2.trans (by decide)⟩
  simp only [add_string, add_uint16_eq, e1, Option.some_bind]
  exact e2

end Datagram

/-- C24, as amended: append is correct whenever the 16-bit size arithmetic does not wrap.
For every Datagram with `buf_end ≤ buf_cap` (and the array behind `buf` at least `buf_cap`
long, which `ctor_alloc` and `op_keepsAlloc` show of every Datagram the class can build)
and every append in which no capacity computed by `check_add_length` exceeds 65535, the
append returns and yields `buf_end' = buf_end + len` for the `len` bytes it encodes, keeps
`buf_end' ≤ buf_cap'`, leaves the first `buf_end` bytes unchanged and places the `len` new
bytes at the offsets `buf_end`, …, `buf_end + len - 1`. For an append that calls
`check_add_length` once, which is every append but `add_string`, `add_blob` and the
headers, `buf_cap + len + 64 ≤ 65535` is enough; so it is for `add_buffer`, whose new
bytes are the reserved span. A nested Datagram argument is an object other than the
receiver with its written bytes inside its array. -/
theorem append_without_wrap (d : Datagram) (hec : d.buf_end ≤ d.buf_cap)
    (hcl : d.buf_cap ≤ d.buf.length) :
    (∀ c : Call, c.ArgsOk → Fits d.buf_cap d.buf_end c.lens →
      ∃ d', c.apply d = some d' ∧ d.Appended c.encoding d') ∧
    (∀ (c : Call) (len : Nat), c.ArgsOk → c.lens = [len] → d.buf_cap + len + 64 ≤ 65535 →
      c.encoding.length = len ∧ ∃ d', c.apply d = some d' ∧ d.Appended c.encoding d') ∧
    (∀ len, d.buf_cap + len + 64 ≤ 65535 →
      ∃ d', d.add_buffer len = some (d.buf_end, d') ∧ d'.buf_end = d.buf_end + len ∧
        d'.buf_end ≤ d'.buf_cap ∧ d'.get_data.take d.buf_end = d.get_data.take d.buf_end ∧
        d.buf_end + len ≤ d'.get_data.length) := by
  have key : ∀ c : Call, c.ArgsOk → Fits d.buf_cap d.buf_end c.lens →
      ∃ d', c.apply d = some d' ∧ d.Appended c.encoding d' := by
    intro c ha hf
    by_cases hnil : c.lens = []
    · obtain ⟨e, henc⟩ := apply_of_lens_nil d c hnil
      refine ⟨d, e, ?_⟩
      rw [henc]
      exact ⟨rfl, hec, rfl, rfl⟩
    · obtain ⟨d1, e1, v1, -, n1, b1⟩ := apply_spec c ⟨hec, hcl, Fits_cap_le hf hnil⟩ ha hf
      exact ⟨d1, e1, appended_of_bytes (le_trans hec hcl) n1 v1.1 b1⟩
  refine ⟨key, fun c len ha hl hr => ⟨?_, key c ha ?_⟩, fun len h => ?_⟩
  · rw [← lens_sum c ha, hl]; simp
  · rw [hl]; exact ⟨grow_le_of_room hr, trivial⟩
  · obtain ⟨d1, e1, v1, -, n1, b1⟩ := @add_buffer_spec d len ⟨hec, hcl, by omega⟩
      (grow_le_of_room h)
    exact ⟨d1, e1, n1, v1.1, b1, by rw [← n1]; exact le_trans v1.1 v1.2.1⟩

/-- C24, witness: on an empty Datagram of capacity 64, a string of 100 bytes appended by
`add_string`, which makes two checks, a 64-bit integer, which makes one, and a reserved
span of 100 bytes. -/
theorem append_without_wrap_witness :
    (∃ d', (Call.add_string (zeros 100)).apply Datagram.default = some d' ∧
      Datagram.default.Appended (Call.add_string (zeros 100)).encoding d') ∧
    ((Call.add_uint64 7).encoding.length = 8 ∧
      ∃ d', (Call.add_uint64 7).apply Datagram.default = some d' ∧
        Datagram.default.Appended (Call.add_uint64 7).encoding d') ∧
    (∃ d', Datagram.default.add_buffer 100 = some (Datagram.default.buf_end, d') ∧
      d'.buf_end = Datagram.default.buf_end + 100 ∧ d'.buf_end ≤ d'.buf_cap ∧
      d'.get_data.take Datagram.default.buf_end
        = Datagram.default.get_data.take Datagram.default.buf_end ∧
      Datagram.default.buf_end + 100 ≤ d'.get_data.length) := by
  have h := append_without_wrap Datagram.default (by decide) (by decide)
  exact ⟨h.1 (.add_string (zeros 100)) trivial (by decide),
    h.2.1 (.add_uint64 7) 8 trivial rfl (by decide), h.2.2 100 (by decide)⟩

/-- C24, counterexample: `add_string` of a 100-byte string, an append of 102 bytes, on a
Datagram that holds 65369 bytes. `buf_end ≤ buf_cap` holds and
`buf_cap + len + 64 = 65369 + 102 + 64 = 65535`, yet the call returns with `buf_end`
65471 and `buf_cap` 63: the check for the two tag bytes raises the capacity to 65435, and
the check for the 100 characters computes 65435 + 100 + 64 = 65599, which wraps. -/
theorem append_two_checks_counterexample :
    ∃ d d', Datagram.ofRaw (zeros 65369) 65369 = some d ∧ d.buf_end ≤ d.buf_cap ∧
      (Call.add_string (zeros 100)).encoding.length = 102 ∧
      d.buf_cap + 102 + 64 ≤ 65535 ∧
      d.add_string (zeros 100) = some d' ∧ d'.buf_end = 65471 ∧ d'.buf_cap = 63 ∧
      ¬ d'.buf_end ≤ d'.buf_cap := by
  have hl : ((zeros 65369).take 65369).length = 65369 := by
    rw [List.length_take, zeros_length]; decide
  have e0 : Datagram.ofRaw (zeros 65369) 65369
      = some { buf := (zeros 65369).take 65369, buf_cap := 65369, buf_end := 65369 } := by
    have h2 : dgsize_t 65369 = 65369 := by decide
    simp only [Datagram.ofRaw, h2, memcpy_new (show 65369 ≤ (zeros 65369).length by
      rw [zeros_length]), Option.some_bind]
  obtain ⟨d', e, n, c⟩ := Datagram.add_string_at_65369
    { buf := (zeros 65369).take 65369, buf_cap := 65369, buf_end := 65369 } rfl rfl
    (by show ((zeros 65369).take 65369).length = 65369; exact hl) (zeros 100)
    (zeros_length 100)
  refine ⟨_, d', e0, Nat.le_refl _, ?_, ?_, e, n, c, ?_⟩
  · simp [Call.encoding, zeros_length, leBytes_length]
  · show 65369 + 102 + 64 ≤ 65535
    decide
  · rw [n, c]; decide

/-! ## C25 -/

/-- C25: `location_as_channel` is injective and invertible on 32-bit identifiers. For all
32-bit parents `p` and zones `z`, `location_as_channel(p, z) >> 32 = p` and
`location_as_channel(p, z) mod 2^32 = z`, so
`location_as_channel(p1, z1) = location_as_channel(p2, z2)` implies `p1 = p2` and
`z1 = z2`. -/
theorem location_as_channel_injective (p1 z1 p2 z2 : Nat) (hp1 : p1 < 2 ^ 32)
    (hz1 : z1 < 2 ^ 32) (hp2 : p2 < 2 ^ 32) (hz2 : z2 < 2 ^ 32) :
    location_as_channel p1 z1 >>> 32 = p1 ∧ location_as_channel p1 z1 % 2 ^ 32 = z1 ∧
    (location_as_channel p1 z1 = location_as_channel p2 z2 → p1 = p2 ∧ z1 = z2) := by
  rw [location_as_channel_eq_add p1 z1 hp1 hz1, location_as_channel_eq_add p2 z2 hp2 hz2,
    Nat.shiftRight_eq_div_pow]
  refine ⟨?_, ?_, ?_⟩ <;> omega

/-- C25, witness: the locations (5, 7) and (5, 7). -/
theorem location_as_channel_injective_witness :
    location_as_channel 5 7 >>> 32 = 5 ∧ location_as_channel 5 7 % 2 ^ 32 = 7 ∧
    (location_as_channel 5 7 = location_as_channel 5 7 → 5 = 5 ∧ 7 = 7) :=
  location_as_channel_injective 5 7 5 7 (by decide) (by decide) (by decide) (by decide)

/-! ## C26 -/

/-- C26: the multicast header of a singleton recipient set coincides with the unicast
header. For every Datagram `d`, channel `c`, sender and message type,
`add_server_header({c}, from, t)` and `add_server_header(c, from, t)` make the same calls
in the same order, so they return the same Datagram (or both copy out of bounds); in
particular they append exactly the same bytes. -/
theorem singleton_header_eq_unicast (d : Datagram) (c sender message_type : Nat) :
    d.add_server_header_set {c} sender message_type
      = d.add_server_header c sender message_type ∧
    (d.add_server_header_set {c} sender message_type).map Datagram.bytes
      = (d.add_server_header c sender message_type).map Datagram.bytes := by
  have h : d.add_server_header_set {c} sender message_type
      = d.add_server_header c sender message_type := by
    simp only [add_server_header_set, add_server_header, Finset.card_singleton,
      Finset.sort_singleton, add_channels]
    congr 1; funext d1
    rw [Option.bind_assoc]
    congr 1
  exact ⟨h, by rw [h]⟩

/-! ## The array is never shorter than the recorded capacity

The hypothesis `buf_cap ≤ buf.length` of the theorems above holds of every Datagram the
class can build: `new` is called with the size before it is stored in 16 bits. -/

theorem memcpy_length {dst src b : List Nat} {off n : Nat} (h : memcpy dst off src n = some b) :
    b.length = dst.length := by
  unfold memcpy at h
  split at h
  · rename_i hc
    have := Option.some.inj h
    subst this
    simp [List.length_take, List.length_drop]
    omega
  · exact absurd h (by simp)

namespace Datagram

theorem keepsAlloc_check (n : Nat) : KeepsAlloc fun d => d.check_add_length n := by
  intro d d' h e
  simp only [check_add_length] at e
  split at e
  · obtain ⟨b, hb, hd⟩ := Option.bind_eq_some.mp e
    have hl := memcpy_length hb
    have := Option.some.inj hd
    subst this
    simp only [hl, newArray_length, dgsize_t]
    exact Nat.mod_le _ _
  · have := Option.some.inj e
    subst this
    exact h

theorem keepsAlloc_put (src : List Nat) (n : Nat) : KeepsAlloc fun d => d.put src n := by
  intro d d' h e
  obtain ⟨b, hb, hd⟩ := Option.bind_eq_some.mp e
  have hl := memcpy_length hb
  have := Option.some.inj hd
  subst this
  simpa only [hl] using h

theorem keepsAlloc_bind {f g : Datagram → Option Datagram} (hf : KeepsAlloc f)
    (hg : KeepsAlloc g) : KeepsAlloc fun d => (f d).bind g := by
  intro d d' h e
  obtain ⟨d1, h1, h2⟩ := Option.bind_eq_some.mp e
  exact hg d1 d' (hf d d1 h h1) h2

theorem keepsAlloc_chunk (len : Nat) (src : List Nat) (n : Nat) :
    KeepsAlloc fun d => (d.check_add_length len).bind fun d => d.put src n :=
  keepsAlloc_bind (keepsAlloc_check len) (keepsAlloc_put src n)

theorem keepsAlloc_channels (cs : List Nat) : KeepsAlloc fun d => d.add_channels cs := by
  induction cs with
  | nil => intro d d' h e; have := Option.some.inj e; subst this; exact h
  | cons c cs ih => exact keepsAlloc_bind (keepsAlloc_chunk _ _ _) ih

end Datagram

/-- Every append call keeps the array at least `buf_cap` long, with no assumption on the
sizes. -/
theorem call_keepsAlloc (c : Call) : KeepsAlloc fun d => c.apply d := by
  cases c with
  | add_bool v => cases v <;> exact keepsAlloc_chunk _ _ _
  | add_uint8 v => exact keepsAlloc_chunk _ _ _
  | add_uint16 v => exact keepsAlloc_chunk _ _ _
  | add_uint32 v => exact keepsAlloc_chunk _ _ _
  | add_uint64 v => exact keepsAlloc_chunk _ _ _
  | add_size v => exact keepsAlloc_chunk _ _ _
  | add_channel v => exact keepsAlloc_chunk _ _ _
  | add_doid v => exact keepsAlloc_chunk _ _ _
  | add_zone v => exact keepsAlloc_chunk _ _ _
  | add_location parent zone =>
    exact keepsAlloc_bind (keepsAlloc_check _)
      (keepsAlloc_bind (keepsAlloc_put _ _) (keepsAlloc_put _ _))
  | add_data data =>
    intro d d' h e
    simp only [Call.apply, Datagram.add_data] at e
    split at e
    · exact keepsAlloc_chunk _ _ _ d d' h e
    · have := Option.some.inj e; subst this; exact h
  | add_data_string str => exact keepsAlloc_chunk _ _ _
  | add_string str => exact keepsAlloc_bind (keepsAlloc_chunk _ _ _) (keepsAlloc_chunk _ _ _)
  | add_string_c_str c_str =>
    exact keepsAlloc_bind (keepsAlloc_chunk _ _ _) (keepsAlloc_chunk _ _ _)
  | add_blob blob => exact keepsAlloc_bind (keepsAlloc_chunk _ _ _) (keepsAlloc_chunk _ _ _)
  | add_blob_datagram dg =>
    exact keepsAlloc_bind (keepsAlloc_chunk _ _ _) (keepsAlloc_chunk _ _ _)
  | add_datagram dg => exact keepsAlloc_chunk _ _ _
  | add_server_header to_channel sender message_type =>
    exact keepsAlloc_bind (keepsAlloc_chunk _ _ _) (keepsAlloc_bind (keepsAlloc_chunk _ _ _)
      (keepsAlloc_bind (keepsAlloc_chunk _ _ _) (keepsAlloc_chunk _ _ _)))
  | add_server_header_set to_channels sender message_type =>
    exact keepsAlloc_bind (keepsAlloc_chunk _ _ _) (keepsAlloc_bind (keepsAlloc_channels _)
      (keepsAlloc_bind (keepsAlloc_chunk _ _ _) (keepsAlloc_chunk _ _ _)))
  | add_control_header message_type =>
    exact keepsAlloc_bind (keepsAlloc_chunk _ _ _)
      (keepsAlloc_bind (keepsAlloc_chunk _ _ _) (keepsAlloc_chunk _ _ _))

/-- Every operation, `add_buffer` included, keeps the array at least `buf_cap` long. -/
theorem op_keepsAlloc (o : Op) : KeepsAlloc fun d => o.apply d := by
  cases o with
  | call c => exact call_keepsAlloc c
  | add_buffer length =>
    intro d d' h e
    simp only [Op.apply, Datagram.add_buffer, Option.map_eq_some'] at e
    obtain ⟨⟨p, d2⟩, h1, h2⟩ := e
    obtain ⟨d1, hc, hs⟩ := Option.bind_eq_some.mp h1
    have hk := keepsAlloc_check _ d d1 h hc
    have := Option.some.inj hs
    simp only [Prod.mk.injEq] at this
    obtain ⟨-, rfl⟩ := this
    subst h2
    exact hk

/-- Every constructor that returns builds a Datagram whose array is at least `buf_cap`
long, whatever the length of its source. -/
theorem ctor_alloc (c : Ctor) (d : Datagram) (e : c.build = some d) :
    d.buf_cap ≤ d.buf.length := by
  have hdef : Datagram.default.buf_cap ≤ Datagram.default.buf.length := by decide
  cases c with
  | default => have := Option.some.inj e; subst this; exact hdef
  | copy dg =>
    obtain ⟨b, hb, hd⟩ := Option.bind_eq_some.mp e
    have hl := memcpy_length hb
    have := Option.some.inj hd; subst this
    simp only [hl, newArray_length, dgsize_t]; exact Nat.mod_le _ _
  | ofVector data =>
    obtain ⟨b, hb, hd⟩ := Option.bind_eq_some.mp e
    have hl := memcpy_length hb
    have := Option.some.inj hd; subst this
    simp only [hl, newArray_length, dgsize_t]; exact Nat.mod_le _ _
  | ofString data =>
    obtain ⟨b, hb, hd⟩ := Option.bind_eq_some.mp e
    have hl := memcpy_length hb
    have := Option.some.inj hd; subst this
    simp only [hl, newArray_length, dgsize_t]; exact Nat.mod_le _ _
  | ofRaw data length =>
    obtain ⟨b, hb, hd⟩ := Option.bind_eq_some.mp e
    have hl := memcpy_length hb
    have := Option.some.inj hd; subst this
    simp only [hl, newArray_length]; exact Nat.le_refl _
  | ofServerHeader to_channel from_channel message_type =>
    exact call_keepsAlloc (.add_server_header to_channel from_channel message_type) _ d hdef e
  | ofServerHeaderSet to_channels from_channel message_type =>
    exact call_keepsAlloc (.add_server_header_set to_channels from_channel message_type) _ d
      hdef e
  | ofControlHeader message_type =>
    exact call_keepsAlloc (.add_control_header message_type) _ d hdef e

end astron
